import Mathlib

/-!
Verification of the Falken data-store layer (`service/data_store/data_store.py`).

The Python source is shallowly embedded: pure functions become Lean
functions, the filesystem becomes an explicit association list from paths
to stored bytes, and Python exceptions become an explicit error type.
Python machine behaviour that the code relies on (string comparison by
code points, `int()` parsing, truthiness of `0`, `None` and `""`,
f-string formatting such as `{t:016d}`) is modelled explicitly below.
-/

namespace Falken

/-! ## Python-style primitive string operations -/

/-- Python string `<` compares by Unicode code points, lexicographically. -/
def listLtB : List Char → List Char → Bool
  | [], [] => false
  | [], _ :: _ => true
  | _ :: _, [] => false
  | a :: as, b :: bs =>
    if a.toNat < b.toNat then true
    else if b.toNat < a.toNat then false
    else listLtB as bs

/-- Python `s < t` on strings. -/
def strLtB (s t : String) : Bool := listLtB s.toList t.toList

/-- Python `s <= t` on strings (total order, so `s <= t` iff not `t < s`). -/
def strLeB (s t : String) : Bool := !(listLtB t.toList s.toList)

theorem listLtB_irrefl (l : List Char) : listLtB l l = false := by
  induction l with
  | nil => rfl
  | cons a as ih => simp [listLtB, ih]

theorem listLtB_trichotomy (a b : List Char) :
    listLtB a b = true ∨ a = b ∨ listLtB b a = true := by
  induction a generalizing b with
  | nil => cases b with
    | nil => simp [listLtB]
    | cons c cs => simp [listLtB]
  | cons x xs ih =>
    cases b with
    | nil => simp [listLtB]
    | cons y ys =>
      rcases Nat.lt_trichotomy x.toNat y.toNat with h | h | h
      · left; simp [listLtB, h]
      · have hxy : x = y := Char.ext (UInt32.ext h)
        subst hxy
        rcases ih ys with h2 | h2 | h2
        · left; simp [listLtB, h2]
        · right; left; rw [h2]
        · right; right; simp [listLtB, h2]
      · right; right; simp [listLtB, h, Nat.lt_asymm h]

theorem listLtB_trans {a b c : List Char} :
    listLtB a b = true → listLtB b c = true → listLtB a c = true := by
  induction a generalizing b c with
  | nil =>
    intro _ h2
    cases b with
    | nil => cases c <;> simp_all [listLtB]
    | cons y ys => cases c with
      | nil => simp [listLtB] at h2
      | cons z zs => simp [listLtB]
  | cons x xs ih =>
    intro h1 h2
    cases b with
    | nil => simp [listLtB] at h1
    | cons y ys =>
      cases c with
      | nil => simp [listLtB] at h2
      | cons z zs =>
        simp only [listLtB] at h1 h2 ⊢
        by_cases hxy : x.toNat < y.toNat
        · rw [if_pos hxy] at h1
          by_cases hyz : y.toNat < z.toNat
          · rw [if_pos (Nat.lt_trans hxy hyz)]
          · rw [if_neg hyz] at h2
            by_cases hzy : z.toNat < y.toNat
            · rw [if_pos hzy] at h2; exact absurd h2 (by simp)
            · have heq : y.toNat = z.toNat :=
                Nat.le_antisymm (Nat.le_of_not_lt hzy) (Nat.le_of_not_lt hyz)
              rw [if_pos (heq ▸ hxy)]
        · rw [if_neg hxy] at h1
          by_cases hyx : y.toNat < x.toNat
          · rw [if_pos hyx] at h1; exact absurd h1 (by simp)
          · rw [if_neg hyx] at h1
            have hxeqy : x.toNat = y.toNat :=
              Nat.le_antisymm (Nat.le_of_not_lt hyx) (Nat.le_of_not_lt hxy)
            by_cases hyz : y.toNat < z.toNat
            · rw [if_pos hyz] at h2
              rw [if_pos (hxeqy ▸ hyz)]
            · rw [if_neg hyz] at h2
              by_cases hzy : z.toNat < y.toNat
              · rw [if_pos hzy] at h2; exact absurd h2 (by simp)
              · rw [if_neg hzy] at h2
                have hyeqz : y.toNat = z.toNat :=
                  Nat.le_antisymm (Nat.le_of_not_lt hzy) (Nat.le_of_not_lt hyz)
                rw [if_neg (hxeqy ▸ hyz), if_neg (by omega : ¬ z.toNat < x.toNat)]
                exact ih h1 h2

theorem listLtB_asymm {a b : List Char} (h : listLtB a b = true) :
    listLtB b a = false := by
  by_contra hc
  have hba : listLtB b a = true := by
    cases hh : listLtB b a with
    | false => exact absurd hh hc
    | true => rfl
  have := listLtB_trans h hba
  rw [listLtB_irrefl] at this
  exact Bool.noConfusion this

theorem strLtB_irrefl (s : String) : strLtB s s = false := listLtB_irrefl _

theorem strLtB_asymm {s t : String} (h : strLtB s t = true) : strLtB t s = false :=
  listLtB_asymm h

theorem string_toList_inj {s t : String} (h : s.toList = t.toList) : s = t := by
  cases s with
  | mk a => cases t with
    | mk b => exact congrArg String.mk h

theorem strLtB_trichotomy (s t : String) :
    strLtB s t = true ∨ s = t ∨ strLtB t s = true := by
  rcases listLtB_trichotomy s.toList t.toList with h | h | h
  · exact Or.inl h
  · exact Or.inr (Or.inl (string_toList_inj h))
  · exact Or.inr (Or.inr h)

theorem strLeB_iff_not_lt (s t : String) : strLeB s t = !(strLtB t s) := rfl

theorem strLtB_of_le_of_ne {s t : String} (hle : strLeB s t = true) (hne : s ≠ t) :
    strLtB s t = true := by
  rcases strLtB_trichotomy s t with h | h | h
  · exact h
  · exact absurd h hne
  · rw [strLeB_iff_not_lt, h] at hle; simp at hle

theorem strLeB_of_lt {s t : String} (h : strLtB s t = true) : strLeB s t = true := by
  rw [strLeB_iff_not_lt, strLtB_asymm h]; rfl

theorem strLeB_refl (s : String) : strLeB s s = true := by
  rw [strLeB_iff_not_lt, strLtB_irrefl]; rfl

theorem strLeB_total (s t : String) : strLeB s t = true ∨ strLeB t s = true := by
  rcases strLtB_trichotomy s t with h | h | h
  · exact Or.inl (strLeB_of_lt h)
  · subst h; exact Or.inl (strLeB_refl s)
  · exact Or.inr (strLeB_of_lt h)

theorem strLtB_trans {a b c : String} (h1 : strLtB a b = true) (h2 : strLtB b c = true) :
    strLtB a c = true := listLtB_trans h1 h2

theorem strLtB_of_lt_of_le {a b c : String} (h1 : strLtB a b = true) (h2 : strLeB b c = true) :
    strLtB a c = true := by
  rcases strLtB_trichotomy b c with h | h | h
  · exact strLtB_trans h1 h
  · exact h ▸ h1
  · rw [strLeB_iff_not_lt, h] at h2; simp at h2

theorem strLtB_of_le_of_lt {a b c : String} (h1 : strLeB a b = true) (h2 : strLtB b c = true) :
    strLtB a c = true := by
  rcases strLtB_trichotomy a b with h | h | h
  · exact strLtB_trans h h2
  · exact h ▸ h2
  · rw [strLeB_iff_not_lt, h] at h1; simp at h1

theorem strLeB_trans {a b c : String} (h1 : strLeB a b = true) (h2 : strLeB b c = true) :
    strLeB a c = true := by
  rcases strLtB_trichotomy a b with h | h | h
  · exact strLeB_of_lt (strLtB_of_lt_of_le h h2)
  · exact h ▸ h2
  · rw [strLeB_iff_not_lt, h] at h1; simp at h1

/-! ## Python `int()` parsing and `str`/format printing of integers -/

/-- ASCII whitespace stripped by Python `int()` (ASCII subset of `str.strip`). -/
def isPySpace (c : Char) : Bool :=
  c = ' ' ∨ c = '\t' ∨ c = '\n' ∨ c = '\r' ∨ c = '\x0b' ∨ c = '\x0c'

def isPyDigit (c : Char) : Bool := '0'.toNat ≤ c.toNat ∧ c.toNat ≤ '9'.toNat

def digitVal (c : Char) : Nat := c.toNat - '0'.toNat

def digitChar (n : Nat) : Char := Char.ofNat ('0'.toNat + n)

/-- Decimal digits of `n`, most significant first (empty for `n = 0`);
structural fuel so that the kernel can evaluate it. -/
def natDigitsAux : Nat → Nat → List Char
  | 0, _ => []
  | fuel + 1, n => if n = 0 then [] else natDigitsAux fuel (n / 10) ++ [digitChar (n % 10)]

def natDigits (n : Nat) : List Char := natDigitsAux n n

/-- Python `str(n)` for a natural number. -/
def pyStrNatL (n : Nat) : List Char := if n = 0 then ['0'] else natDigits n

/-- Python `str(i)` for an integer. -/
def pyStrL (i : Int) : List Char :=
  if i < 0 then '-' :: pyStrNatL (-i).toNat else pyStrNatL i.toNat

def pyStr (i : Int) : String := String.mk (pyStrL i)

/-- Python `f-string` formatting with format spec `016d`: pad with zeros on the
left to a total width of 16 characters (the sign, if any, comes first). -/
def fmt016L (i : Int) : List Char :=
  if i < 0 then
    '-' :: (List.replicate (15 - (pyStrNatL (-i).toNat).length) '0' ++ pyStrNatL (-i).toNat)
  else
    List.replicate (16 - (pyStrNatL i.toNat).length) '0' ++ pyStrNatL i.toNat

def fmt016 (i : Int) : String := String.mk (fmt016L i)

/-- Digit run of Python `int()`: digits, optionally separated by single
underscores (`1_0` parses as `10`; `_1`, `1_`, `1__0` do not parse). -/
def parseDigitsCore (acc : Nat) : List Char → Option Nat
  | [] => some acc
  | c :: rest =>
    if isPyDigit c then parseDigitsCore (acc * 10 + digitVal c) rest
    else if c = '_' then
      match rest with
      | [] => none
      | d :: rest' =>
        if isPyDigit d then parseDigitsCore (acc * 10 + digitVal d) rest' else none
    else none

def parseDigits : List Char → Option Nat
  | [] => none
  | c :: rest => if isPyDigit c then parseDigitsCore (digitVal c) rest else none

/-- Python `int(s)` (ASCII subset): strip whitespace, optional sign, digit run. -/
def pyParseIntL (l : List Char) : Option Int :=
  match ((l.dropWhile isPySpace).reverse.dropWhile isPySpace).reverse with
  | [] => none
  | c :: rest =>
    if c = '-' then (parseDigits rest).map (fun n : Nat => -(n : Int))
    else if c = '+' then (parseDigits rest).map (fun n : Nat => (n : Int))
    else (parseDigits (c :: rest)).map (fun n : Nat => (n : Int))

def pyParseInt (s : String) : Option Int := pyParseIntL s.toList

/-- Python `s.split(sep)` for a one-character separator. -/
def splitColon : List Char → List (List Char)
  | [] => [[]]
  | c :: rest =>
    match splitColon rest with
    | [] => [[c]]
    | h :: t => if c = ':' then [] :: h :: t else (c :: h) :: t

/-! ### Correctness of printing/parsing round-trips -/

def digitsFold (a : Nat) (l : List Char) : Nat :=
  l.foldl (fun acc c => acc * 10 + digitVal c) a

theorem digitVal_digitChar {d : Nat} (h : d < 10) : digitVal (digitChar d) = d := by
  interval_cases d <;> decide

theorem isPyDigit_digitChar {d : Nat} (h : d < 10) : isPyDigit (digitChar d) = true := by
  interval_cases d <;> decide

theorem natDigitsAux_digits :
    ∀ fuel n, ∀ c ∈ natDigitsAux fuel n, isPyDigit c = true := by
  intro fuel
  induction fuel with
  | zero => intro n c hc; simp [natDigitsAux] at hc
  | succ f ih =>
    intro n c hc
    by_cases hn : n = 0
    · simp [natDigitsAux, hn] at hc
    · rw [natDigitsAux, if_neg hn] at hc
      rcases List.mem_append.mp hc with h | h
      · exact ih _ c h
      · rcases List.mem_singleton.mp h with rfl
        exact isPyDigit_digitChar (Nat.mod_lt _ (by omega))

theorem digitsFold_append (a : Nat) (l1 l2 : List Char) :
    digitsFold a (l1 ++ l2) = digitsFold (digitsFold a l1) l2 := by
  simp [digitsFold, List.foldl_append]

theorem natDigitsAux_val :
    ∀ fuel n a, n ≤ fuel →
      digitsFold a (natDigitsAux fuel n) = a * 10 ^ (natDigitsAux fuel n).length + n := by
  intro fuel
  induction fuel with
  | zero => intro n a h; interval_cases n; simp [natDigitsAux, digitsFold]
  | succ f ih =>
    intro n a h
    by_cases hn : n = 0
    · simp [natDigitsAux, hn, digitsFold]
    · rw [natDigitsAux, if_neg hn]
      have hdiv : n / 10 ≤ f := by
        have := Nat.div_lt_self (Nat.pos_of_ne_zero hn) (by omega : 1 < 10)
        omega
      rw [digitsFold_append, ih _ a hdiv]
      simp only [digitsFold, List.foldl_cons, List.foldl_nil, List.length_append,
        List.length_singleton]
      rw [digitVal_digitChar (Nat.mod_lt _ (by omega))]
      rw [pow_succ]
      have := Nat.div_add_mod n 10
      ring_nf
      omega

theorem parseDigitsCore_all_digits :
    ∀ l acc, (∀ c ∈ l, isPyDigit c = true) →
      parseDigitsCore acc l = some (digitsFold acc l) := by
  intro l
  induction l with
  | nil => intro acc _; simp [parseDigitsCore, digitsFold]
  | cons c rest ih =>
    intro acc h
    rw [parseDigitsCore.eq_def]
    simp only []
    rw [if_pos (h c (List.mem_cons_self c rest))]
    rw [ih _ (fun x hx => h x (List.mem_cons_of_mem c hx))]
    simp [digitsFold]

theorem parseDigits_all_digits {l : List Char} (hne : l ≠ [])
    (h : ∀ c ∈ l, isPyDigit c = true) :
    parseDigits l = some (digitsFold 0 l) := by
  cases l with
  | nil => exact absurd rfl hne
  | cons c rest =>
    rw [parseDigits, if_pos (h c (List.mem_cons_self c rest))]
    rw [parseDigitsCore_all_digits rest _ (fun x hx => h x (List.mem_cons_of_mem c hx))]
    simp [digitsFold]

theorem pyStrNatL_ne_nil (n : Nat) : pyStrNatL n ≠ [] := by
  by_cases hn : n = 0
  · simp [pyStrNatL, hn]
  · rw [pyStrNatL, if_neg hn]
    rcases n with _ | m
    · exact absurd rfl hn
    · rw [natDigits, natDigitsAux, if_neg hn]
      simp

theorem pyStrNatL_digits (n : Nat) : ∀ c ∈ pyStrNatL n, isPyDigit c = true := by
  by_cases hn : n = 0
  · intro c hc; simp [pyStrNatL, hn] at hc; subst hc; decide
  · rw [pyStrNatL, if_neg hn]; exact natDigitsAux_digits n n

theorem parseDigits_pyStrNatL (n : Nat) : parseDigits (pyStrNatL n) = some n := by
  rw [parseDigits_all_digits (pyStrNatL_ne_nil n) (pyStrNatL_digits n)]
  by_cases hn : n = 0
  · subst hn; decide
  · rw [pyStrNatL, if_neg hn, natDigits, natDigitsAux_val n n 0 (Nat.le_refl n)]
    simp

theorem digitsFold_zeros (a : Nat) (j : Nat) :
    digitsFold a (List.replicate j '0') = a * 10 ^ j := by
  induction j generalizing a with
  | zero => simp [digitsFold]
  | succ k ih =>
    rw [List.replicate_succ]
    have : digitsFold a ('0' :: List.replicate k '0') =
        digitsFold (a * 10 + digitVal '0') (List.replicate k '0') := rfl
    rw [this, ih]
    have : digitVal '0' = 0 := by decide
    rw [this, pow_succ]
    ring

theorem parseDigits_zeros_append (k n : Nat) :
    parseDigits (List.replicate k '0' ++ pyStrNatL n) = some n := by
  have hd : ∀ c ∈ List.replicate k '0' ++ pyStrNatL n, isPyDigit c = true := by
    intro c hc
    rcases List.mem_append.mp hc with h | h
    · rcases List.eq_of_mem_replicate h with rfl; decide
    · exact pyStrNatL_digits n c h
  have hne : List.replicate k '0' ++ pyStrNatL n ≠ [] := by
    simp [pyStrNatL_ne_nil n]
  rw [parseDigits_all_digits hne hd, digitsFold_append, digitsFold_zeros]
  simp only [Nat.zero_mul]
  by_cases hn : n = 0
  · subst hn
    have : digitsFold 0 (pyStrNatL 0) = 0 := by decide
    rw [this]
  · rw [pyStrNatL, if_neg hn, natDigits, natDigitsAux_val n n 0 (Nat.le_refl n)]
    simp

theorem isPyDigit_not_space {c : Char} (h : isPyDigit c = true) : isPySpace c = false := by
  have hb : 48 ≤ c.toNat := by
    simp only [isPyDigit, decide_eq_true_eq] at h
    exact h.1
  simp only [isPySpace, decide_eq_false_iff_not]
  rintro (rfl | rfl | rfl | rfl | rfl | rfl) <;> simp at hb

theorem isPyDigit_ne_chars {c : Char} (h : isPyDigit c = true) :
    c ≠ '-' ∧ c ≠ '+' ∧ c ≠ ':' ∧ isPySpace c = false := by
  have hb : 48 ≤ c.toNat ∧ c.toNat ≤ 57 := by
    simp only [isPyDigit, decide_eq_true_eq] at h
    exact h
  refine ⟨?_, ?_, ?_, isPyDigit_not_space h⟩ <;> rintro rfl <;> simp at hb

theorem dropWhile_no_space {l : List Char} (h : ∀ c ∈ l, isPySpace c = false) :
    l.dropWhile isPySpace = l := by
  cases l with
  | nil => rfl
  | cons c r =>
    rw [List.dropWhile_cons, if_neg]
    rw [h c (List.mem_cons_self c r)]
    simp

theorem stripId {l : List Char} (h : ∀ c ∈ l, isPySpace c = false) :
    ((l.dropWhile isPySpace).reverse.dropWhile isPySpace).reverse = l := by
  rw [dropWhile_no_space h, dropWhile_no_space (fun c hc => h c (List.mem_reverse.mp hc)),
    List.reverse_reverse]

theorem pyParseIntL_nil : pyParseIntL [] = none := rfl

theorem pyParseIntL_cons {c : Char} {rest : List Char}
    (h : ∀ x ∈ c :: rest, isPySpace x = false) :
    pyParseIntL (c :: rest) =
      (if c = '-' then (parseDigits rest).map (fun n : Nat => -(n : Int))
       else if c = '+' then (parseDigits rest).map (fun n : Nat => (n : Int))
       else (parseDigits (c :: rest)).map (fun n : Nat => (n : Int))) := by
  rw [pyParseIntL, stripId h]

theorem pyStrNatL_head_digit (n : Nat) :
    ∃ c rest, pyStrNatL n = c :: rest ∧ isPyDigit c = true := by
  rcases hl : pyStrNatL n with _ | ⟨c, rest⟩
  · exact absurd hl (pyStrNatL_ne_nil n)
  · exact ⟨c, rest, rfl, pyStrNatL_digits n c (hl ▸ List.mem_cons_self c rest)⟩

theorem pyParseIntL_pyStrL (i : Int) : pyParseIntL (pyStrL i) = some i := by
  by_cases hi : i < 0
  · rw [pyStrL, if_pos hi]
    have hns : ∀ c ∈ '-' :: pyStrNatL (-i).toNat, isPySpace c = false := by
      intro c hc
      rcases List.mem_cons.mp hc with rfl | hc
      · decide
      · exact isPyDigit_not_space (pyStrNatL_digits _ c hc)
    rw [pyParseIntL_cons hns, if_pos rfl, parseDigits_pyStrNatL, Option.map_some']
    congr 1
    omega
  · rw [pyStrL, if_neg hi]
    obtain ⟨c, rest, hl, hc⟩ := pyStrNatL_head_digit i.toNat
    have hns : ∀ x ∈ pyStrNatL i.toNat, isPySpace x = false :=
      fun x hx => isPyDigit_not_space (pyStrNatL_digits _ x hx)
    have hns2 : ∀ x ∈ c :: rest, isPySpace x = false := hl ▸ hns
    rw [hl, pyParseIntL_cons hns2]
    obtain ⟨hm, hp, _, _⟩ := isPyDigit_ne_chars hc
    rw [if_neg hm, if_neg hp, ← hl, parseDigits_pyStrNatL, Option.map_some']
    congr 1
    omega

theorem pyParseInt_pyStr (i : Int) : pyParseInt (pyStr i) = some i := by
  have : (pyStr i).toList = pyStrL i := rfl
  rw [pyParseInt, this, pyParseIntL_pyStrL]

theorem fmt016L_parse (i : Int) : pyParseIntL (fmt016L i) = some i := by
  by_cases hi : i < 0
  · rw [fmt016L, if_pos hi]
    have hns : ∀ c ∈ '-' :: (List.replicate (15 - (pyStrNatL (-i).toNat).length) '0' ++
        pyStrNatL (-i).toNat), isPySpace c = false := by
      intro c hc
      rcases List.mem_cons.mp hc with rfl | hc
      · decide
      · rcases List.mem_append.mp hc with h | h
        · rcases List.eq_of_mem_replicate h with rfl; decide
        · exact isPyDigit_not_space (pyStrNatL_digits _ c h)
    rw [pyParseIntL_cons hns, if_pos rfl, parseDigits_zeros_append, Option.map_some']
    congr 1
    omega
  · rw [fmt016L, if_neg hi]
    have hall : ∀ c ∈ List.replicate (16 - (pyStrNatL i.toNat).length) '0' ++
        pyStrNatL i.toNat, isPyDigit c = true := by
      intro c hc
      rcases List.mem_append.mp hc with h | h
      · rcases List.eq_of_mem_replicate h with rfl; decide
      · exact pyStrNatL_digits _ c h
    have hns : ∀ c ∈ List.replicate (16 - (pyStrNatL i.toNat).length) '0' ++
        pyStrNatL i.toNat, isPySpace c = false :=
      fun c hc => isPyDigit_not_space (hall c hc)
    rcases hl : List.replicate (16 - (pyStrNatL i.toNat).length) '0' ++ pyStrNatL i.toNat
      with _ | ⟨c, rest⟩
    · exact absurd (List.append_eq_nil.mp hl).2 (pyStrNatL_ne_nil _)
    · have hc : isPyDigit c = true := hall c (hl ▸ List.mem_cons_self c rest)
      have hns2 : ∀ x ∈ c :: rest, isPySpace x = false := hl ▸ hns
      rw [pyParseIntL_cons hns2]
      obtain ⟨hm, hp, _, _⟩ := isPyDigit_ne_chars hc
      rw [if_neg hm, if_neg hp, ← hl, parseDigits_zeros_append, Option.map_some']
      congr 1
      omega

theorem pyParseInt_fmt016 (i : Int) : pyParseInt (fmt016 i) = some i := by
  have : (fmt016 i).toList = fmt016L i := rfl
  rw [pyParseInt, this, fmt016L_parse]

theorem pyStrL_no_colon (i : Int) : ∀ c ∈ pyStrL i, c ≠ ':' := by
  intro c hc
  rw [pyStrL] at hc
  by_cases hi : i < 0
  · rw [if_pos hi] at hc
    rcases List.mem_cons.mp hc with rfl | hc
    · decide
    · exact (isPyDigit_ne_chars (pyStrNatL_digits _ c hc)).2.2.1
  · rw [if_neg hi] at hc
    exact (isPyDigit_ne_chars (pyStrNatL_digits _ c hc)).2.2.1

theorem splitColon_ne_nil (l : List Char) : splitColon l ≠ [] := by
  cases l with
  | nil => simp [splitColon]
  | cons c rest =>
    rw [splitColon]
    rcases h : splitColon rest with _ | ⟨x, xs⟩
    · simp
    · by_cases hc : c = ':' <;> simp [hc]

theorem splitColon_no_colon {a : List Char} (h : ∀ c ∈ a, c ≠ ':') :
    splitColon a = [a] := by
  induction a with
  | nil => rfl
  | cons c rest ih =>
    rw [splitColon, ih (fun x hx => h x (List.mem_cons_of_mem c hx))]
    simp [h c (List.mem_cons_self c rest)]

theorem splitColon_append {a b : List Char} (h : ∀ c ∈ a, c ≠ ':') :
    splitColon (a ++ ':' :: b) = a :: splitColon b := by
  induction a with
  | nil =>
    rw [List.nil_append, splitColon]
    rcases hb : splitColon b with _ | ⟨x, xs⟩
    · exact absurd hb (splitColon_ne_nil b)
    · simp
  | cons c rest ih =>
    rw [List.cons_append, splitColon, ih (fun x hx => h x (List.mem_cons_of_mem c hx))]
    simp [h c (List.mem_cons_self c rest)]

/-! ## SHA-256 (`hashlib.sha256(value.encode(utf-8)).hexdigest()`)

Words are naturals reduced modulo `2 ^ 32`. -/

def w32 (n : Nat) : Nat := n % 4294967296

def rotr32 (s w : Nat) : Nat := w32 (w / 2 ^ s + w % 2 ^ s * 2 ^ (32 - s))

def shr32 (s w : Nat) : Nat := w / 2 ^ s

def not32 (w : Nat) : Nat := 4294967295 - w32 w

structure HState where
  a : Nat
  b : Nat
  c : Nat
  d : Nat
  e : Nat
  f : Nat
  g : Nat
  h : Nat

def sha256InitState : HState :=
  ⟨1779033703, 3144134277, 1013904242, 2773480762,
   1359893119, 2600822924, 528734635, 1541459225⟩

def sha256K : List Nat :=
  [1116352408, 1899447441, 3049323471, 3921009573, 961987163, 1508970993,
   2453635748, 2870763221, 3624381080, 310598401, 607225278, 1426881987,
   1925078388, 2162078206, 2614888103, 3248222580, 3835390401, 4022224774,
   264347078, 604807628, 770255983, 1249150122, 1555081692, 1996064986,
   2554220882, 2821834349, 2952996808, 3210313671, 3336571891, 3584528711,
   113926993, 338241895, 666307205, 773529912, 1294757372, 1396182291,
   1695183700, 1986661051, 2177026350, 2456956037, 2730485921, 2820302411,
   3259730800, 3345764771, 3516065817, 3600352804, 4094571909, 275423344,
   430227734, 506948616, 659060556, 883997877, 958139571, 1322822218,
   1537002063, 1747873779, 1955562222, 2024104815, 2227730452, 2361852424,
   2428436474, 2756734187, 3204031479, 3329325298]

/-- Big-endian 32-bit word from 4 bytes of the block at word index `i`. -/
def beWord (block : List Nat) (i : Nat) : Nat :=
  block.getD (4 * i) 0 * 16777216 + block.getD (4 * i + 1) 0 * 65536 +
    block.getD (4 * i + 2) 0 * 256 + block.getD (4 * i + 3) 0

def ssig0 (x : Nat) : Nat := w32 ((rotr32 7 x) ^^^ (rotr32 18 x) ^^^ (shr32 3 x))

def ssig1 (x : Nat) : Nat := w32 ((rotr32 17 x) ^^^ (rotr32 19 x) ^^^ (shr32 10 x))

def bsig0 (x : Nat) : Nat := w32 ((rotr32 2 x) ^^^ (rotr32 13 x) ^^^ (rotr32 22 x))

def bsig1 (x : Nat) : Nat := w32 ((rotr32 6 x) ^^^ (rotr32 11 x) ^^^ (rotr32 25 x))

/-- The 64-entry message schedule of one block. -/
def sha256Schedule (block : List Nat) : List Nat :=
  (List.range 64).foldl
    (fun ws i =>
      if i < 16 then ws ++ [beWord block i]
      else
        ws ++ [w32 (ssig1 (ws.getD (i - 2) 0) + ws.getD (i - 7) 0 +
                    ssig0 (ws.getD (i - 15) 0) + ws.getD (i - 16) 0)])
    []

def sha256Round (st : HState) (kw : Nat × Nat) : HState :=
  let t1 := w32 (st.h + bsig1 st.e + w32 ((st.e &&& st.f) ^^^ (not32 st.e &&& st.g)) +
                 kw.1 + kw.2)
  let t2 := w32 (bsig0 st.a + w32 ((st.a &&& st.b) ^^^ (st.a &&& st.c) ^^^ (st.b &&& st.c)))
  ⟨w32 (t1 + t2), st.a, st.b, st.c, w32 (st.d + t1), st.e, st.f, st.g⟩

def sha256Block (st : HState) (block : List Nat) : HState :=
  let fin := (sha256K.zip (sha256Schedule block)).foldl sha256Round st
  ⟨w32 (st.a + fin.a), w32 (st.b + fin.b), w32 (st.c + fin.c), w32 (st.d + fin.d),
   w32 (st.e + fin.e), w32 (st.f + fin.f), w32 (st.g + fin.g), w32 (st.h + fin.h)⟩

/-- 8-byte big-endian encoding of the bit length. -/
def beLen64 (n : Nat) : List Nat :=
  [(n / 2 ^ 56) % 256, (n / 2 ^ 48) % 256, (n / 2 ^ 40) % 256, (n / 2 ^ 32) % 256,
   (n / 2 ^ 24) % 256, (n / 2 ^ 16) % 256, (n / 2 ^ 8) % 256, n % 256]

/-- SHA-256 padding: `0x80`, zeros to 56 mod 64, then the 64-bit bit length. -/
def sha256Pad (msg : List Nat) : List Nat :=
  let r := (msg.length + 1) % 64
  let zeros := if r ≤ 56 then 56 - r else 56 + 64 - r
  msg ++ [128] ++ List.replicate zeros 0 ++ beLen64 (8 * msg.length)

/-- Split into 64-byte chunks (structural fuel; the padded length is a
multiple of 64). -/
def chunk64 : Nat → List Nat → List (List Nat)
  | 0, _ => []
  | _, [] => []
  | fuel + 1, l => l.take 64 :: chunk64 fuel (l.drop 64)

def sha256Bytes (msg : List Nat) : HState :=
  let padded := sha256Pad msg
  (chunk64 padded.length padded).foldl sha256Block sha256InitState

def hexDigitChar (n : Nat) : Char :=
  if n < 10 then digitChar n else Char.ofNat ('a'.toNat + (n - 10))

/-- Lower-case hex rendering of a 32-bit word, always 8 characters. -/
def wordHexChars (w : Nat) : List Char :=
  (List.range 8).map (fun i => hexDigitChar (w / 16 ^ (7 - i) % 16))

def utf8Bytes (s : String) : List Nat := s.toUTF8.toList.map (fun b => b.toNat)

/-- `hashlib.sha256(s.encode(utf-8)).hexdigest()`. -/
def sha256hex (s : String) : String :=
  let st := sha256Bytes (utf8Bytes s)
  String.mk (([st.a, st.b, st.c, st.d, st.e, st.f, st.g, st.h].map wordHexChars).flatten)

theorem wordHexChars_length (w : Nat) : (wordHexChars w).length = 8 := by
  simp [wordHexChars]

/-- The hex digest always has 64 characters. -/
theorem sha256hex_length (s : String) : (sha256hex s).length = 64 := by
  have : ∀ l : List Char, (String.mk l).length = l.length := fun l => rfl
  rw [sha256hex, this]
  simp [wordHexChars_length]

/-! ## Errors

Python raises `NotFoundError`, `InternalError`, `ValueError` (with distinct
messages for the conflict, unsupported-type, unsupported-collection,
type-mismatch and invalid-token cases), `AssertionError`, `AttributeError`,
`IndexError` and protobuf decode errors; the spec's taxonomy names them, so
each raise site gets its own constructor. -/

inductive Err where
  | notFound
  | internalError
  | conflict
  | unsupportedType
  | unsupportedCollection
  | typeMismatch
  | decodeError
  | invalidToken
  | valueError
  | attributeError
  | assertionError
  | indexError
  | fuelOut
deriving DecidableEq

/-! ## Records (`data_store_pb2` protos)

The proto definitions are not part of the embedded sources; each variant
carries exactly the key fields named by `FalkenResourceHandler._KEY_FIELD_MAP`
plus (modelled from the spec) the single creation-timestamp field
`created_micros` in microseconds, sentinel `0` meaning unset, and an opaque
payload `blob` standing for all remaining proto fields.  `unknown` stands for
a runtime value whose type is not one of the ten datastore protos. -/

inductive Record where
  | project (project_id : String) (created_micros : Int) (blob : String)
  | brain (project_id brain_id : String) (created_micros : Int) (blob : String)
  | snapshot (project_id brain_id snapshot_id : String)
      (created_micros : Int) (blob : String)
  | session (project_id brain_id session_id : String)
      (created_micros : Int) (blob : String)
  | episodeChunk (project_id brain_id session_id episode_id chunk_id : String)
      (created_micros : Int) (blob : String)
  | onlineEvaluation (project_id brain_id session_id episode_id : String)
      (created_micros : Int) (blob : String)
  | assignment (project_id brain_id session_id assignment_id : String)
      (created_micros : Int) (blob : String)
  | model (project_id brain_id session_id model_id : String)
      (created_micros : Int) (blob : String)
  | serializedModel (project_id brain_id session_id model_id : String)
      (created_micros : Int) (blob : String)
  | offlineEvaluation
      (project_id brain_id session_id model_id offline_evaluation_id : String)
      (created_micros : Int) (blob : String)
  | unknown (typeName : String)
deriving DecidableEq

/-- Runtime type tags for the ten datastore protos. -/
inductive RecordTag where
  | project | brain | snapshot | session | episodeChunk
  | onlineEvaluation | assignment | model | serializedModel | offlineEvaluation
deriving DecidableEq

/-- `type(resource)`: the runtime proto type, `none` for a non-datastore value. -/
def tagOf : Record → Option RecordTag
  | .project .. => some .project
  | .brain .. => some .brain
  | .snapshot .. => some .snapshot
  | .session .. => some .session
  | .episodeChunk .. => some .episodeChunk
  | .onlineEvaluation .. => some .onlineEvaluation
  | .assignment .. => some .assignment
  | .model .. => some .model
  | .serializedModel .. => some .serializedModel
  | .offlineEvaluation .. => some .offlineEvaluation
  | .unknown _ => none

/-- The proto field `resource.created_micros` (0 when never set). -/
def createdMicros : Record → Int
  | .project _ c _ => c
  | .brain _ _ c _ => c
  | .snapshot _ _ _ c _ => c
  | .session _ _ _ c _ => c
  | .episodeChunk _ _ _ _ _ c _ => c
  | .onlineEvaluation _ _ _ _ c _ => c
  | .assignment _ _ _ _ c _ => c
  | .model _ _ _ _ c _ => c
  | .serializedModel _ _ _ _ c _ => c
  | .offlineEvaluation _ _ _ _ _ c _ => c
  | .unknown _ => 0

/-- `FalkenResourceHandler.get_timestamp_micros`: `created_micros or None`. -/
def getTimestampMicros (r : Record) : Option Int :=
  if createdMicros r = 0 then none else some (createdMicros r)

/-- `FalkenResourceHandler.set_timestamp_micros`: in-place update of the
timestamp field, every other field unchanged. -/
def setTimestampMicros : Record → Int → Record
  | .project a _ b, t => .project a t b
  | .brain a b _ bl, t => .brain a b t bl
  | .snapshot a b c _ bl, t => .snapshot a b c t bl
  | .session a b c _ bl, t => .session a b c t bl
  | .episodeChunk a b c d e _ bl, t => .episodeChunk a b c d e t bl
  | .onlineEvaluation a b c d _ bl, t => .onlineEvaluation a b c d t bl
  | .assignment a b c d _ bl, t => .assignment a b c d t bl
  | .model a b c d _ bl, t => .model a b c d t bl
  | .serializedModel a b c d _ bl, t => .serializedModel a b c d t bl
  | .offlineEvaluation a b c d e _ bl, t => .offlineEvaluation a b c d e t bl
  | .unknown n, _ => .unknown n

/-- `getattr(resource, field_name)` for the key fields (none if absent). -/
def getField : Record → String → Option String
  | .project a _ _, f =>
    if f = "project_id" then some a else none
  | .brain a b _ _, f =>
    if f = "project_id" then some a else if f = "brain_id" then some b else none
  | .snapshot a b c _ _, f =>
    if f = "project_id" then some a else if f = "brain_id" then some b
    else if f = "snapshot_id" then some c else none
  | .session a b c _ _, f =>
    if f = "project_id" then some a else if f = "brain_id" then some b
    else if f = "session_id" then some c else none
  | .episodeChunk a b c d e _ _, f =>
    if f = "project_id" then some a else if f = "brain_id" then some b
    else if f = "session_id" then some c else if f = "episode_id" then some d
    else if f = "chunk_id" then some e else none
  | .onlineEvaluation a b c d _ _, f =>
    if f = "project_id" then some a else if f = "brain_id" then some b
    else if f = "session_id" then some c else if f = "episode_id" then some d
    else none
  | .assignment a b c d _ _, f =>
    if f = "project_id" then some a else if f = "brain_id" then some b
    else if f = "session_id" then some c else if f = "assignment_id" then some d
    else none
  | .model a b c d _ _, f =>
    if f = "project_id" then some a else if f = "brain_id" then some b
    else if f = "session_id" then some c else if f = "model_id" then some d
    else none
  | .serializedModel a b c d _ _, f =>
    if f = "project_id" then some a else if f = "brain_id" then some b
    else if f = "session_id" then some c else if f = "model_id" then some d
    else none
  | .offlineEvaluation a b c d e _ _, f =>
    if f = "project_id" then some a else if f = "brain_id" then some b
    else if f = "session_id" then some c else if f = "model_id" then some d
    else if f = "offline_evaluation_id" then some e else none
  | .unknown _, _ => none

/-- `FalkenResourceHandler._KEY_FIELD_MAP`: per proto type, the key fields in
declared (dict insertion) order, each mapped to its accessor name. -/
def keyFieldMap : List (RecordTag × List (String × String)) :=
  [(.project, [("project_id", "project")]),
   (.brain, [("project_id", "project"), ("brain_id", "brain")]),
   (.snapshot, [("project_id", "project"), ("brain_id", "brain"),
                ("snapshot_id", "snapshot")]),
   (.session, [("project_id", "project"), ("brain_id", "brain"),
               ("session_id", "session")]),
   (.episodeChunk, [("project_id", "project"), ("brain_id", "brain"),
                    ("session_id", "session"), ("episode_id", "episode"),
                    ("chunk_id", "chunk")]),
   (.onlineEvaluation, [("project_id", "project"), ("brain_id", "brain"),
                        ("session_id", "session"),
                        ("episode_id", "online_evaluation")]),
   (.assignment, [("project_id", "project"), ("brain_id", "brain"),
                  ("session_id", "session"), ("assignment_id", "assignment")]),
   (.model, [("project_id", "project"), ("brain_id", "brain"),
             ("session_id", "session"), ("model_id", "model")]),
   (.serializedModel, [("project_id", "project"), ("brain_id", "brain"),
                       ("session_id", "session"),
                       ("model_id", "serialized_model")]),
   (.offlineEvaluation, [("project_id", "project"), ("brain_id", "brain"),
                         ("session_id", "session"), ("model_id", "model"),
                         ("offline_evaluation_id", "offline_evaluation")])]

/-- `FalkenResourceHandler.to_resource_id`: look the runtime type up in the
key-field map (`KeyError` becomes the unsupported-type error), then for each
declared key field in order read the field value, hashing `assignment_id`
values, and emit the (accessor, value) pair. -/
def toResourceId (r : Record) : Except Err (List (String × String)) := do
  let fieldMap ←
    match tagOf r with
    | none => Except.error Err.unsupportedType
    | some tag =>
      match (keyFieldMap.find? (fun e => e.1 = tag)).map (fun e => e.2) with
      | none => Except.error Err.unsupportedType
      | some fm => Except.ok fm
  fieldMap.mapM (fun fa =>
    match getField r fa.1 with
    | none => Except.error Err.attributeError
    | some v =>
      Except.ok (fa.2, if fa.1 = "assignment_id" then sha256hex v else v))

/-- Modelled from the spec: `resource_id.FalkenResourceId` maps each accessor
(e.g. `brain`) to its collection name in the hierarchical path (e.g.
`brains`); the canonical string form is the `/`-join of `collection/id`
segments (spec section 3 and the path layout of section 6). -/
def pluralize (accessor : String) : String :=
  if accessor = "project" then "projects"
  else if accessor = "brain" then "brains"
  else if accessor = "snapshot" then "snapshots"
  else if accessor = "session" then "sessions"
  else if accessor = "episode" then "episodes"
  else if accessor = "chunk" then "chunks"
  else if accessor = "online_evaluation" then "online_evaluations"
  else if accessor = "assignment" then "assignments"
  else if accessor = "model" then "models"
  else if accessor = "serialized_model" then "serialized_models"
  else if accessor = "offline_evaluation" then "offline_evaluations"
  else accessor

/-- Modelled from the spec: `res_id.parts`, the ordered path segments of a
`FalkenResourceId` built from (accessor, value) pairs. -/
def partsOfPairs (pairs : List (String × String)) : List String :=
  (pairs.map (fun p => [pluralize p.1, p.2])).flatten

/-- Modelled from the spec: `str(res_id)`, the canonical path string. -/
def ridStrOfPairs (pairs : List (String × String)) : String :=
  String.intercalate "/" (partsOfPairs pairs)

/-- `_PROTO_BY_COLLECTION_ID`. -/
def protoByCollectionId (collection : String) : Option RecordTag :=
  if collection = "projects" then some .project
  else if collection = "brains" then some .brain
  else if collection = "snapshots" then some .snapshot
  else if collection = "sessions" then some .session
  else if collection = "chunks" then some .episodeChunk
  else if collection = "online_evaluations" then some .onlineEvaluation
  else if collection = "assignments" then some .assignment
  else if collection = "models" then some .model
  else if collection = "serialized_models" then some .serializedModel
  else if collection = "offline_evaluations" then some .offlineEvaluation
  else none

/-! ## Encoder (`_FalkenResourceEncoder`) -/

/-- Stored file contents: either a serialized proto or arbitrary other bytes. -/
inductive Bytes where
  | ofRecord (r : Record)
  | raw (s : String)
deriving DecidableEq

/-- Modelled from the spec: protobuf `SerializeToString`, a deterministic
injective serialization of the record. -/
def serializeToString (r : Record) : Bytes := Bytes.ofRecord r

/-- Modelled from the spec: protobuf `proto_type.FromString`, inverting
`SerializeToString` for bytes of the expected type and failing with a decode
error on malformed bytes. -/
def protoFromString (tag : RecordTag) (b : Bytes) : Except Err Record :=
  match b with
  | .ofRecord r => if tagOf r = some tag then .ok r else .error .decodeError
  | .raw _ => .error .decodeError

/-- `res_id.parts[-2]`. -/
def secondLast (parts : List String) : Option String :=
  (parts.reverse.drop 1).head?

/-- `_FalkenResourceEncoder._get_proto_type`: assert at least 2 parts, look up
the collection id (second-to-last part) in the proto table. -/
def getProtoType (parts : List String) : Except Err RecordTag :=
  if parts.length < 2 then .error .assertionError
  else
    match secondLast parts with
    | none => .error .assertionError
    | some coll =>
      match protoByCollectionId coll with
      | some t => .ok t
      | none => .error .unsupportedCollection

/-- `_FalkenResourceEncoder.encode_resource`: type-check against the
collection's expected proto type, then serialize. -/
def encodeResource (parts : List String) (r : Record) : Except Err Bytes := do
  let expected ← getProtoType parts
  if tagOf r = some expected then .ok (serializeToString r)
  else .error .typeMismatch

/-- `_FalkenResourceEncoder.decode_resource`. -/
def decodeResource (parts : List String) (b : Bytes) : Except Err Record := do
  let t ← getProtoType parts
  protoFromString t b

/-! ## The abstract byte store (`file_system.FileSystem`)

Modelled from the spec (section 6): a namespaced byte store with
`write_file` (create or overwrite at an exact path), `read_file`, and `glob`,
where `*` matches any content within one path segment.  The store state is an
association list from path strings to stored bytes. -/

def splitSep (sep : Char) : List Char → List (List Char)
  | [] => [[]]
  | c :: rest =>
    match splitSep sep rest with
    | [] => [[c]]
    | h :: t => if c = sep then [] :: h :: t else (c :: h) :: t

theorem splitSep_ne_nil (sep : Char) (l : List Char) : splitSep sep l ≠ [] := by
  cases l with
  | nil => simp [splitSep]
  | cons c rest =>
    rw [splitSep]
    rcases h : splitSep sep rest with _ | ⟨x, xs⟩
    · simp
    · by_cases hc : c = sep <;> simp [hc]

theorem splitSep_no {sep : Char} {a : List Char} (h : ∀ c ∈ a, c ≠ sep) :
    splitSep sep a = [a] := by
  induction a with
  | nil => rfl
  | cons c rest ih =>
    rw [splitSep, ih (fun x hx => h x (List.mem_cons_of_mem c hx))]
    simp [h c (List.mem_cons_self c rest)]

theorem splitSep_append (sep : Char) (a b : List Char) :
    splitSep sep (a ++ sep :: b) = splitSep sep a ++ splitSep sep b := by
  induction a with
  | nil =>
    rw [List.nil_append]
    rcases hb : splitSep sep b with _ | ⟨x, xs⟩
    · exact absurd hb (splitSep_ne_nil sep b)
    · conv_lhs => rw [splitSep, hb]
      simp [splitSep]
  | cons c rest ih =>
    rw [List.cons_append, splitSep, ih]
    rcases hr : splitSep sep rest with _ | ⟨x, xs⟩
    · exact absurd hr (splitSep_ne_nil sep rest)
    · rw [splitSep, hr]
      by_cases hc : c = sep <;> simp [hc]

/-- One-segment glob match: `*` matches any run of characters (fuel-based so
that the kernel can evaluate it; fuel `|p| + |s| + 1` always suffices). -/
def segMatchF : Nat → List Char → List Char → Bool
  | 0, _, _ => false
  | fuel + 1, p, s =>
    match p, s with
    | [], [] => true
    | [], _ :: _ => false
    | c :: ps, [] => if c = '*' then segMatchF fuel ps [] else false
    | c :: ps, d :: s2 =>
      if c = '*' then segMatchF fuel ps (d :: s2) || segMatchF fuel (c :: ps) s2
      else c = d && segMatchF fuel ps s2

def segMatch (p s : List Char) : Bool := segMatchF (p.length + s.length + 1) p s

theorem segMatchF_fuelIrrel :
    ∀ fa, ∀ p s fb, p.length + s.length < fa → p.length + s.length < fb →
      segMatchF fa p s = segMatchF fb p s := by
  intro fa
  induction fa with
  | zero => intro p s fb h _; omega
  | succ f ih =>
    intro p s fb ha hb
    rcases fb with _ | fb2
    · omega
    · cases p with
      | nil => cases s <;> rfl
      | cons c ps =>
        cases s with
        | nil =>
          simp only [segMatchF]
          by_cases hc : c = '*'
          · rw [if_pos hc, if_pos hc, ih ps [] fb2 (by simp at ha ⊢; omega)
              (by simp at hb ⊢; omega)]
          · rw [if_neg hc, if_neg hc]
        | cons d s2 =>
          simp only [segMatchF]
          by_cases hc : c = '*'
          · rw [if_pos hc, if_pos hc,
              ih ps (d :: s2) fb2 (by simp at ha ⊢; omega) (by simp at hb ⊢; omega),
              ih (c :: ps) s2 fb2 (by simp at ha ⊢; omega) (by simp at hb ⊢; omega)]
          · rw [if_neg hc, if_neg hc,
              ih ps s2 fb2 (by simp at ha ⊢; omega) (by simp at hb ⊢; omega)]

theorem segMatch_nil_nil : segMatch [] [] = true := rfl

theorem segMatch_nil_cons (d : Char) (s : List Char) : segMatch [] (d :: s) = false := rfl

theorem segMatch_cons_nil (c : Char) (ps : List Char) :
    segMatch (c :: ps) [] = if c = '*' then segMatch ps [] else false := by
  rw [segMatch, segMatchF]
  by_cases hc : c = '*'
  · rw [if_pos hc, if_pos hc]
    exact segMatchF_fuelIrrel ((c :: ps).length + ([] : List Char).length) ps []
      (ps.length + ([] : List Char).length + 1)
      (by simp only [List.length_cons, List.length_nil]; omega)
      (by simp only [List.length_nil]; omega)
  · rw [if_neg hc, if_neg hc]

theorem segMatch_cons_cons (c : Char) (ps : List Char) (d : Char) (s2 : List Char) :
    segMatch (c :: ps) (d :: s2) =
      if c = '*' then segMatch ps (d :: s2) || segMatch (c :: ps) s2
      else c = d && segMatch ps s2 := by
  rw [segMatch, segMatchF]
  by_cases hc : c = '*'
  · rw [if_pos hc, if_pos hc]
    have e1 := segMatchF_fuelIrrel ((c :: ps).length + (d :: s2).length) ps (d :: s2)
      (ps.length + (d :: s2).length + 1)
      (by simp only [List.length_cons]; omega) (by omega)
    have e2 := segMatchF_fuelIrrel ((c :: ps).length + (d :: s2).length) (c :: ps) s2
      ((c :: ps).length + s2.length + 1)
      (by simp only [List.length_cons]; omega) (by simp only [List.length_cons]; omega)
    rw [e1, e2]
    rfl
  · rw [if_neg hc, if_neg hc]
    have e3 := segMatchF_fuelIrrel ((c :: ps).length + (d :: s2).length) ps s2
      (ps.length + s2.length + 1)
      (by simp only [List.length_cons]; omega) (by omega)
    rw [e3]
    rfl

theorem segMatch_self {p : List Char} (h : '*' ∉ p) : segMatch p p = true := by
  induction p with
  | nil => rfl
  | cons c ps ih =>
    have hcne : c ≠ '*' := fun hc => h (hc ▸ List.mem_cons_self c ps)
    rw [segMatch_cons_cons, if_neg hcne]
    simp [ih (fun hm => h (List.mem_cons_of_mem c hm))]

theorem segMatch_star (s : List Char) : segMatch ['*'] s = true := by
  induction s with
  | nil => rfl
  | cons d s2 ih => rw [segMatch_cons_cons, if_pos rfl, ih]; simp

theorem segMatch_lit_star {l : List Char} (h : '*' ∉ l) (x : List Char) :
    segMatch (l ++ ['*']) (l ++ x) = true := by
  induction l with
  | nil => exact segMatch_star x
  | cons c l2 ih =>
    have hcne : c ≠ '*' := fun hc => h (hc ▸ List.mem_cons_self c l2)
    rw [List.cons_append, List.cons_append, segMatch_cons_cons, if_neg hcne]
    simp [ih (fun hm => h (List.mem_cons_of_mem c hm))]

/-- Whole-path glob match: segment lists must have equal length and match
segment-wise.  (Brace alternation is not modelled; no embedded caller uses
it.) -/
def globSegsMatch : List (List Char) → List (List Char) → Bool
  | [], [] => true
  | p :: ps, s :: ss => segMatch p s && globSegsMatch ps ss
  | _, _ => false

def globMatch (pat path : String) : Bool :=
  globSegsMatch (splitSep '/' pat.toList) (splitSep '/' path.toList)

/-- `os.path.basename`: the part after the last slash. -/
def basenameL (l : List Char) : List Char :=
  (l.reverse.takeWhile (fun c => c ≠ '/')).reverse

/-- `os.path.dirname`: the part before the last slash. -/
def dirnameL (l : List Char) : List Char :=
  if (l.reverse.takeWhile (fun c => c ≠ '/')).length = l.length then []
  else l.take (l.length - (l.reverse.takeWhile (fun c => c ≠ '/')).length - 1)

def basenameS (s : String) : String := String.mk (basenameL s.toList)

def dirnameS (s : String) : String := String.mk (dirnameL s.toList)

theorem takeWhile_append_stop {p : Char → Bool} {x : List Char} (y : Char) (z : List Char)
    (hx : ∀ c ∈ x, p c = true) (hy : p y = false) :
    (x ++ y :: z).takeWhile p = x := by
  induction x with
  | nil => simp [List.takeWhile_cons, hy]
  | cons c cs ih =>
    rw [List.cons_append, List.takeWhile_cons, hx c (List.mem_cons_self c cs)]
    rw [ih (fun e he => hx e (List.mem_cons_of_mem c he))]
    simp

theorem basenameL_append {a b : List Char} (hb : '/' ∉ b) :
    basenameL (a ++ '/' :: b) = b := by
  rw [basenameL, List.reverse_append, List.reverse_cons, List.append_assoc,
    List.singleton_append]
  rw [takeWhile_append_stop '/' a.reverse
    (fun c hc => by
      simp only [decide_eq_true_eq]
      exact fun h => hb (h ▸ List.mem_reverse.mp hc))
    (by simp)]
  exact List.reverse_reverse b

theorem dirnameL_append {a b : List Char} (hb : '/' ∉ b) :
    dirnameL (a ++ '/' :: b) = a := by
  have htw : ((a ++ '/' :: b).reverse.takeWhile (fun c => decide (c ≠ '/'))) = b.reverse := by
    rw [List.reverse_append, List.reverse_cons, List.append_assoc, List.singleton_append]
    exact takeWhile_append_stop '/' a.reverse
      (fun c hc => by
        simp only [decide_eq_true_eq]
        exact fun h12 => hb (h12 ▸ List.mem_reverse.mp hc))
      (by simp)
  rw [dirnameL, htw]
  have hne : ¬ (b.reverse.length = (a ++ '/' :: b).length) := by
    simp only [List.length_reverse, List.length_append, List.length_cons]
    omega
  rw [if_neg hne]
  have h2 : (a ++ '/' :: b).length - b.reverse.length - 1 = a.length := by
    simp only [List.length_reverse, List.length_append, List.length_cons]
    omega
  rw [h2, List.take_left]

/-- The abstract byte-store state: stored files as (path, contents), in
creation order. -/
abbrev FS := List (String × Bytes)

/-- `file_system.write_file`: create or overwrite the file at an exact path. -/
def writeFile (fs : FS) (p : String) (d : Bytes) : FS :=
  if (fs.map Prod.fst).contains p then
    fs.map (fun e => if e.1 = p then (p, d) else e)
  else fs ++ [(p, d)]

/-- `file_system.read_file`, `None` standing for `FileNotFoundError`. -/
def readFile (fs : FS) (p : String) : Option Bytes :=
  (fs.find? (fun e => e.1 = p)).map Prod.snd

/-- `file_system.glob`: paths of existing files matching the pattern. -/
def globFS (fs : FS) (pat : String) : List String :=
  (fs.map Prod.fst).filter (fun p => globMatch pat p)

/-! ## `ResourceStore` -/

/-- `ResourceStore._get_filename`: `resource.` followed by the
16-digit zero-padded timestamp. -/
def rsGetFilename (t : Int) : String := "resource." ++ fmt016 t

/-- `ResourceStore._get_path`: `os.path.join(str(res_id), filename)`. -/
def rsGetPath (ridStr : String) (t : Int) : String := ridStr ++ "/" ++ rsGetFilename t

/-- `ResourceStore.read_timestamp_micros`: glob `{res_id}/resource.*`; no match
is `NotFoundError`, several matches `InternalError`, and the single match's
basename after the 9-character prefix must parse with `int()`. -/
def readTimestampMicros (fs : FS) (ridStr : String) : Except Err Int :=
  match globFS fs (ridStr ++ "/resource.*") with
  | [] => .error .notFound
  | [f] =>
    match pyParseInt (String.mk ((basenameL f.toList).drop 9)) with
    | some t => .ok t
    | none => .error .internalError
  | _ => .error .internalError

/-- `ResourceStore.read`: resolve the stored timestamp, read the file at the
reconstructed canonical path (`FileNotFoundError` becomes `NotFoundError`),
decode. -/
def storeRead (fs : FS) (rid : List (String × String)) : Except Err Record := do
  let t ← readTimestampMicros fs (ridStrOfPairs rid)
  match readFile fs (rsGetPath (ridStrOfPairs rid) t) with
  | none => Except.error Err.notFound
  | some data => decodeResource (partsOfPairs rid) data

/-- `read_timestamp or int(time.time() * 1e6)`: the timestamp minted when the
record carries none — the stored one if it is truthy, else the wall clock. -/
def reconcileTs (now : Int) (readT : Option Int) : Int :=
  match readT with
  | some rt => if rt ≠ 0 then rt else now
  | none => now

/-- The reconciliation and write step of `ResourceStore.write`, given the
(possibly absent) stored timestamp `readT`.  Python truthiness: an unset
(`0`) record timestamp and a stored timestamp that reads back as `0` are
both falsy. -/
def storeWriteResolve (now : Int) (fs : FS) (r : Record)
    (rid : List (String × String)) (readT : Option Int) :
    Except Err (FS × Record × List (String × String)) :=
  match getTimestampMicros r with
  | none =>
    match encodeResource (partsOfPairs rid) (setTimestampMicros r (reconcileTs now readT)) with
    | .error e => .error e
    | .ok data =>
      Except.ok (writeFile fs (rsGetPath (ridStrOfPairs rid) (reconcileTs now readT)) data,
        setTimestampMicros r (reconcileTs now readT), rid)
  | some t =>
    if (match readT with | some rt => decide (rt ≠ 0) && decide (rt ≠ t) | none => false) then
      Except.error Err.conflict
    else
      match encodeResource (partsOfPairs rid) r with
      | .error e => .error e
      | .ok data =>
        Except.ok (writeFile fs (rsGetPath (ridStrOfPairs rid) t) data, r, rid)

/-- The part of `ResourceStore.write` after the resource id is derived:
read the stored timestamp treating only `NotFoundError` as "absent", then
reconcile and write. -/
def storeWriteAfterId (now : Int) (fs : FS) (r : Record)
    (rid : List (String × String)) :
    Except Err (FS × Record × List (String × String)) := do
  let readT ←
    match readTimestampMicros fs (ridStrOfPairs rid) with
    | .ok t => Except.ok (some t)
    | .error .notFound => Except.ok (none : Option Int)
    | .error e => Except.error e
  storeWriteResolve now fs r rid readT

/-- `ResourceStore.write`.  `now` is the wall clock `int(time.time() * 1e6)`.
Returns the new store state, the (possibly timestamp-mutated) record and the
derived resource id. -/
def storeWrite (now : Int) (fs : FS) (r : Record) :
    Except Err (FS × Record × List (String × String)) := do
  let rid ← toResourceId r
  storeWriteAfterId now fs r rid

/-- `ResourceStore._decode_token` for a non-`None` token: split on `:`,
exactly two pieces, integer first piece (both failure modes raise
`ValueError`). -/
def decodeTokenStr (token : String) : Except Err (Int × String) :=
  match splitColon token.toList with
  | [a, b] =>
    match pyParseIntL a with
    | some n => .ok (n, String.mk b)
    | none => .error .invalidToken
  | _ => .error .invalidToken

/-- `ResourceStore._encode_token`. -/
def encodeTokenStr (t : Int) (rid : String) : String := pyStr t ++ ":" ++ rid

/-- Python truthiness of the decoded `page_token_res_id` (`None` and `""` are
falsy). -/
def tokTruthy : Option String → Bool
  | some s => s ≠ ""
  | none => false

/-- Python truthiness of `page_size` (`None` and `0` are falsy). -/
def psTruthy : Option Int → Bool
  | some n => n ≠ 0
  | none => false

/-- Result of the enumeration loop in `ResourceStore.list`: the page, the
running `last_timestamp_micros`, and whether `last_read_index` ended at the
final element of the sorted sequence. -/
structure WalkOut where
  page : List String
  lastTs : Int
  consumedAll : Bool
deriving DecidableEq

/-- The `for last_read_index, (timestamp_micros, res_id_string) in
enumerate(by_timestamp)` loop of `ResourceStore.list`: skip entries below the
combined minimum, skip entries at the boundary not beyond the token's resource
id, append otherwise, and break once the page reaches a truthy `page_size`. -/
def listWalk (cm : Int) (tokId : Option String) (ps : Option Int) :
    Nat → Int → List (Int × String) → WalkOut
  | _, lastTs, [] => ⟨[], lastTs, true⟩
  | taken, lastTs, (ts, rid) :: rest =>
    if ts < cm then listWalk cm tokId ps taken lastTs rest
    else if ts = cm ∧ tokTruthy tokId ∧ strLeB rid (tokId.getD "") then
      listWalk cm tokId ps taken lastTs rest
    else
      if psTruthy ps ∧ ((taken + 1 : Nat) : Int) = ps.getD 0 then
        ⟨[rid], ts, rest.isEmpty⟩
      else
        let w := listWalk cm tokId ps (taken + 1) ts rest
        ⟨rid :: w.page, w.lastTs, w.consumedAll⟩

/-- Python `sorted` on (timestamp, path) tuples: ascending lexicographic
order (tuple `<` on int then string).  Insertion sort; it agrees with
`sorted` whenever the pairs are pairwise distinct, which every theorem below
assumes or proves. -/
def entryLeB (a b : Int × String) : Bool :=
  if a.1 < b.1 then true else if a.1 = b.1 then strLeB a.2 b.2 else false

def insortE (x : Int × String) : List (Int × String) → List (Int × String)
  | [] => [x]
  | y :: ys => if entryLeB x y then x :: y :: ys else y :: insortE x ys

def sortEntries : List (Int × String) → List (Int × String)
  | [] => []
  | x :: xs => insortE x (sortEntries xs)

/-- The tail of `ResourceStore.list` after token decoding: run the loop, then
either report end-of-results with an empty token, or encode
`(last_timestamp_micros, page[-1])` (reading `page[-1]` raises `IndexError`
on an empty list). -/
def listTail (sorted : List (Int × String)) (cm : Int) (tokId : Option String)
    (ps : Option Int) : Except Err (List String × String) :=
  let w := listWalk cm tokId ps 0 0 sorted
  if w.consumedAll then
    Except.ok (w.page, "")
  else
    match w.page.getLast? with
    | none => Except.error Err.indexError
    | some lastId => Except.ok (w.page, encodeTokenStr w.lastTs lastId)

/-- Token handling of `ResourceStore.list`: a truthy `page_token` is decoded
and its timestamp combined with `min_timestamp_micros` by `max`; a falsy one
leaves the minimum alone and no token resource id. -/
def decodePageToken (minTs : Int) (pageToken : Option String) :
    Except Err (Int × Option String) :=
  match pageToken with
  | some tok =>
    if tok ≠ "" then do
      let td ← decodeTokenStr tok
      Except.ok (max td.1 minTs, some td.2)
    else Except.ok (minTs, (none : Option String))
  | none => Except.ok (minTs, (none : Option String))

/-- The token/pagination part of `ResourceStore.list`, over the recovered
(timestamp, resource-id-string) pairs: sort, decode a truthy page token,
combine the minima, then run the loop. -/
def listCore (entries : List (Int × String)) (minTs : Int) (pageToken : Option String)
    (pageSize : Option Int) : Except Err (List String × String) := do
  let ct ← decodePageToken minTs pageToken
  listTail (sortEntries entries) ct.1 ct.2 pageSize

/-- Recover each globbed file's (timestamp, resource-id-string) pair: the
dirname is the id, the basename after the 9-character `resource.` prefix must
parse with `int()` (`ValueError` propagates). -/
def entriesOfAux : List String → Except Err (List (Int × String))
  | [] => .ok []
  | f :: rest =>
    match pyParseInt (String.mk ((basenameL f.toList).drop 9)) with
    | some t =>
      match entriesOfAux rest with
      | .ok tail => .ok ((t, String.mk (dirnameL f.toList)) :: tail)
      | .error e => .error e
    | none => .error .valueError

/-- The enumeration part of `ResourceStore.list`: glob `{res_id_glob}/*` and
recover the (timestamp, id) pairs. -/
def entriesOf (fs : FS) (globStr : String) : Except Err (List (Int × String)) :=
  entriesOfAux (globFS fs (globStr ++ "/*"))

/-- `ResourceStore.list`. -/
def listFS (fs : FS) (globStr : String) (minTs : Int) (pageToken : Option String)
    (pageSize : Option Int) : Except Err (List String × String) := do
  let entries ← entriesOf fs globStr
  listCore entries minTs pageToken pageSize

/-! ## `DataStore` -/

/-- `DataStore._get_most_recent`: list everything (no page size) and return
the last id, or none when nothing matches. -/
def getMostRecent (fs : FS) (globStr : String) : Except Err (Option String) := do
  let res ← listFS fs globStr 0 none none
  Except.ok res.1.getLast?

/-- Modelled from the spec: the glob
`FalkenResourceId(project=project_id, brain=brain_id, snapshot='*')`. -/
def snapshotGlob (projectId brainId : String) : String :=
  ridStrOfPairs [("project", projectId), ("brain", brainId), ("snapshot", "*")]

/-- `DataStore.get_most_recent_snapshot`. -/
def getMostRecentSnapshot (fs : FS) (projectId brainId : String) :
    Except Err (Option String) :=
  getMostRecent fs (snapshotGlob projectId brainId)

/-! ## The pagination protocol -/

/-- Repeatedly call `list`, feeding each non-empty next-token back in, and
concatenate the pages (with a fuel bound on the number of calls). -/
def collectPages : Nat → FS → String → Int → Option Int → Option String →
    Except Err (List String)
  | 0, _, _, _, _, _ => .error .fuelOut
  | fuel + 1, fs, globStr, minTs, ps, tok => do
    let res ← listFS fs globStr minTs tok ps
    if res.2 = "" then Except.ok res.1
    else do
      let rest ← collectPages fuel fs globStr minTs ps (some res.2)
      Except.ok (res.1 ++ rest)

/-- The canonical enumeration: all recovered entries at or above the minimum
timestamp, in ascending (timestamp, identifier-string) order. -/
def canonicalOfEntries (entries : List (Int × String)) (minTs : Int) : List String :=
  ((sortEntries entries).filter (fun e => decide (minTs ≤ e.1))).map Prod.snd

/-! ## Order lemmas for (timestamp, identifier) pairs -/

/-- Non-strict lexicographic order on (timestamp, id-string) pairs. -/
def elex (a b : Int × String) : Prop :=
  a.1 < b.1 ∨ (a.1 = b.1 ∧ strLeB a.2 b.2 = true)

/-- Strict lexicographic order. -/
def eltx (a b : Int × String) : Prop :=
  a.1 < b.1 ∨ (a.1 = b.1 ∧ strLtB a.2 b.2 = true)

def eltxB (a b : Int × String) : Bool :=
  decide (a.1 < b.1) || (decide (a.1 = b.1) && strLtB a.2 b.2)

theorem eltxB_iff {a b : Int × String} : eltxB a b = true ↔ eltx a b := by
  rw [eltxB, eltx]
  simp

theorem entryLeB_iff {a b : Int × String} : entryLeB a b = true ↔ elex a b := by
  rw [entryLeB, elex]
  by_cases h1 : a.1 < b.1
  · simp [h1]
  · rw [if_neg h1]
    by_cases h2 : a.1 = b.1
    · simp [h1, h2]
    · simp [h1, h2]

theorem elex_total (a b : Int × String) : elex a b ∨ elex b a := by
  rw [elex, elex]
  rcases Int.lt_trichotomy a.1 b.1 with h | h | h
  · exact Or.inl (Or.inl h)
  · rcases strLeB_total a.2 b.2 with h2 | h2
    · exact Or.inl (Or.inr ⟨h, h2⟩)
    · exact Or.inr (Or.inr ⟨h.symm, h2⟩)
  · exact Or.inr (Or.inl h)

theorem elex_trans {a b c : Int × String} (h1 : elex a b) (h2 : elex b c) : elex a c := by
  rcases h1 with h1 | ⟨h1a, h1b⟩ <;> rcases h2 with h2 | ⟨h2a, h2b⟩
  · exact Or.inl (by omega)
  · exact Or.inl (by omega)
  · exact Or.inl (by omega)
  · exact Or.inr ⟨by omega, strLeB_trans h1b h2b⟩

theorem eltx_of_elex_ne {a b : Int × String} (h : elex a b) (hne : a.2 ≠ b.2) :
    eltx a b := by
  rcases h with h | ⟨h1, h2⟩
  · exact Or.inl h
  · exact Or.inr ⟨h1, strLtB_of_le_of_ne h2 hne⟩

theorem elex_of_eltx {a b : Int × String} (h : eltx a b) : elex a b := by
  rcases h with h | ⟨h1, h2⟩
  · exact Or.inl h
  · exact Or.inr ⟨h1, strLeB_of_lt h2⟩

theorem eltx_irrefl (a : Int × String) : ¬ eltx a a := by
  rintro (h | ⟨_, h2⟩)
  · omega
  · rw [strLtB_irrefl] at h2; exact Bool.noConfusion h2

theorem eltx_trans {a b c : Int × String} (h1 : eltx a b) (h2 : eltx b c) : eltx a c := by
  rcases h1 with h1 | ⟨h1a, h1b⟩ <;> rcases h2 with h2 | ⟨h2a, h2b⟩
  · exact Or.inl (by omega)
  · exact Or.inl (by omega)
  · exact Or.inl (by omega)
  · exact Or.inr ⟨by omega, strLtB_trans h1b h2b⟩

theorem eltx_asymm {a b : Int × String} (h : eltx a b) : ¬ eltx b a :=
  fun h2 => eltx_irrefl a (eltx_trans h h2)

theorem elex_eltx_trans {a b c : Int × String} (h1 : elex a b) (h2 : eltx b c) :
    eltx a c := by
  rcases h1 with h1 | ⟨h1a, h1b⟩ <;> rcases h2 with h2 | ⟨h2a, h2b⟩
  · exact Or.inl (by omega)
  · exact Or.inl (by omega)
  · exact Or.inl (by omega)
  · exact Or.inr ⟨by omega, strLtB_of_le_of_lt h1b h2b⟩

theorem eltx_elex_trans {a b c : Int × String} (h1 : eltx a b) (h2 : elex b c) :
    eltx a c := by
  rcases h1 with h1 | ⟨h1a, h1b⟩ <;> rcases h2 with h2 | ⟨h2a, h2b⟩
  · exact Or.inl (by omega)
  · exact Or.inl (by omega)
  · exact Or.inl (by omega)
  · exact Or.inr ⟨by omega, strLtB_of_lt_of_le h1b h2b⟩

/-! ## Sorting lemmas -/

theorem mem_insortE {x y : Int × String} {l : List (Int × String)} :
    x ∈ insortE y l ↔ x = y ∨ x ∈ l := by
  induction l with
  | nil => simp [insortE]
  | cons z zs ih =>
    rw [insortE]
    by_cases h : entryLeB y z = true
    · simp [h]
    · simp only [Bool.not_eq_true] at h
      simp [h, ih]
      tauto

theorem insortE_perm (x : Int × String) (l : List (Int × String)) :
    List.Perm (insortE x l) (x :: l) := by
  induction l with
  | nil => rfl
  | cons z zs ih =>
    rw [insortE]
    by_cases h : entryLeB x z = true
    · simp [h]
    · simp only [Bool.not_eq_true] at h
      rw [if_neg (by simp [h])]
      exact (ih.cons z).trans (List.Perm.swap x z zs)

theorem sortEntries_perm (l : List (Int × String)) : List.Perm (sortEntries l) l := by
  induction l with
  | nil => rfl
  | cons x xs ih =>
    rw [sortEntries]
    exact (insortE_perm x (sortEntries xs)).trans (ih.cons x)

theorem mem_sortEntries {x : Int × String} {l : List (Int × String)} :
    x ∈ sortEntries l ↔ x ∈ l := (sortEntries_perm l).mem_iff

theorem insortE_sorted {x : Int × String} {l : List (Int × String)}
    (h : l.Pairwise elex) : (insortE x l).Pairwise elex := by
  induction l with
  | nil => simp [insortE, List.Pairwise.nil]
  | cons z zs ih =>
    rw [List.pairwise_cons] at h
    rw [insortE]
    by_cases hle : entryLeB x z = true
    · rw [if_pos hle]
      rw [List.pairwise_cons]
      constructor
      · intro b hb
        rcases List.mem_cons.mp hb with rfl | hb
        · exact entryLeB_iff.mp hle
        · exact elex_trans (entryLeB_iff.mp hle) (h.1 b hb)
      · exact List.pairwise_cons.mpr h
    · rw [if_neg hle]
      rw [List.pairwise_cons]
      constructor
      · intro b hb
        rcases mem_insortE.mp hb with rfl | hb
        · rcases elex_total z b with hzb | hbz
          · exact hzb
          · exact absurd (entryLeB_iff.mpr hbz) (by simpa using hle)
        · exact h.1 b hb
      · exact ih h.2

theorem sortEntries_sorted (l : List (Int × String)) :
    (sortEntries l).Pairwise elex := by
  induction l with
  | nil => exact List.Pairwise.nil
  | cons x xs ih => exact insortE_sorted ih

/-- With pairwise-distinct identifier strings the sort is strictly
increasing. -/
theorem sortEntries_strict {l : List (Int × String)}
    (hnd : (l.map Prod.snd).Nodup) : (sortEntries l).Pairwise eltx := by
  have hperm : List.Perm ((sortEntries l).map Prod.snd) (l.map Prod.snd) :=
    (sortEntries_perm l).map Prod.snd
  have hnd2 : ((sortEntries l).map Prod.snd).Nodup := hperm.nodup_iff.mpr hnd
  have hne : (sortEntries l).Pairwise (fun a b => a.2 ≠ b.2) := by
    exact List.pairwise_map.mp hnd2
  exact ((sortEntries_sorted l).and hne).imp (fun h => eltx_of_elex_ne h.1 h.2)

/-! ## The enumeration loop of `list` -/

/-- Whether the loop keeps (appends) an entry, as a function of the combined
minimum and the decoded token resource id. -/
def keepB (cm : Int) (tokId : Option String) (e : Int × String) : Bool :=
  if e.1 < cm then false
  else if e.1 = cm ∧ tokTruthy tokId ∧ strLeB e.2 (tokId.getD "") then false
  else true

theorem keepB_none_iff {cm : Int} {e : Int × String} :
    keepB cm none e = true ↔ cm ≤ e.1 := by
  rw [keepB]
  have h2 : ¬ (e.1 = cm ∧ tokTruthy (none : Option String) = true ∧
      strLeB e.2 ((none : Option String).getD "") = true) := by
    rintro ⟨_, h, _⟩; simp [tokTruthy] at h
  rw [if_neg h2]
  by_cases h : e.1 < cm
  · rw [if_pos h]
    constructor
    · intro hx; exact Bool.noConfusion hx
    · intro hx; omega
  · rw [if_neg h]
    constructor
    · intro _; omega
    · intro _; rfl

theorem keepB_token_iff {t : Int} {id : String} (hid : id ≠ "") {e : Int × String} :
    keepB t (some id) e = true ↔ eltx (t, id) e := by
  have htr : tokTruthy (some id) = true := by simp [tokTruthy, hid]
  have hgd : (some id).getD "" = id := rfl
  rw [keepB]
  have heq : eltx (t, id) e ↔ (t < e.1 ∨ (t = e.1 ∧ strLtB id e.2 = true)) := Iff.rfl
  rw [heq]
  by_cases h : e.1 < t
  · rw [if_pos h]
    constructor
    · intro hx; exact Bool.noConfusion hx
    · rintro (h2 | ⟨h2, _⟩) <;> omega
  · rw [if_neg h]
    by_cases h2 : e.1 = t
    · by_cases h3 : strLeB e.2 id = true
      · rw [if_pos ⟨h2, htr, hgd ▸ h3⟩]
        constructor
        · intro hx; exact Bool.noConfusion hx
        · rintro (h4 | ⟨_, h4⟩)
          · omega
          · exfalso
            rw [strLeB_iff_not_lt, h4] at h3
            simp at h3
      · rw [if_neg (fun hx => h3 (hgd ▸ hx.2.2))]
        constructor
        · intro _
          right
          refine ⟨h2.symm, ?_⟩
          rcases strLtB_trichotomy id e.2 with h4 | h4 | h4
          · exact h4
          · exact absurd (show strLeB e.2 id = true by rw [h4]; exact strLeB_refl e.2) h3
          · exact absurd (strLeB_of_lt h4) h3
        · intro _; rfl
    · rw [if_neg (fun hx => h2 hx.1)]
      constructor
      · intro _; left; omega
      · intro _; rfl

theorem keepB_mono {cm : Int} {tokId : Option String} {a b : Int × String}
    (hab : elex a b) (ha : keepB cm tokId a = true) : keepB cm tokId b = true := by
  rw [keepB] at ha ⊢
  by_cases h1 : a.1 < cm
  · rw [if_pos h1] at ha; exact Bool.noConfusion ha
  · rw [if_neg h1] at ha
    have hb1 : ¬ b.1 < cm := by
      rcases hab with h | ⟨h, _⟩ <;> omega
    rw [if_neg hb1]
    by_cases hb2 : b.1 = cm ∧ tokTruthy tokId = true ∧ strLeB b.2 (tokId.getD "") = true
    · exfalso
      have ha2 : a.1 = cm ∧ tokTruthy tokId = true ∧ strLeB a.2 (tokId.getD "") = true := by
        rcases hab with h | ⟨h, hle⟩
        · omega
        · exact ⟨h.trans hb2.1, hb2.2.1, strLeB_trans hle hb2.2.2⟩
      rw [if_pos ha2] at ha
      exact Bool.noConfusion ha
    · rw [if_neg hb2]

theorem filter_keepB_of_head {cm : Int} {tokId : Option String} {e : Int × String}
    {rest : List (Int × String)} (hs : (e :: rest).Pairwise elex)
    (hk : keepB cm tokId e = true) :
    (e :: rest).filter (keepB cm tokId) = e :: rest := by
  rw [List.filter_eq_self]
  intro b hb
  rcases List.mem_cons.mp hb with rfl | hb
  · exact hk
  · exact keepB_mono ((List.pairwise_cons.mp hs).1 b hb) hk

/-- The running `last_timestamp_micros` after appending a list of entries. -/
def lastTsD (d : Int) (l : List (Int × String)) : Int :=
  match l.getLast? with
  | none => d
  | some e => e.1

theorem getLast?_cons_some {α : Type} (f : α) (fs : List α) :
    ∃ x, (f :: fs).getLast? = some x := by
  induction fs generalizing f with
  | nil => exact ⟨f, rfl⟩
  | cons g gs ih => rw [List.getLast?_cons_cons]; exact ih g

theorem lastTsD_cons (d : Int) (e : Int × String) (l : List (Int × String)) :
    lastTsD d (e :: l) = lastTsD e.1 l := by
  cases l with
  | nil => rfl
  | cons f fs =>
    obtain ⟨x, hx⟩ := getLast?_cons_some f fs
    rw [lastTsD, lastTsD, List.getLast?_cons_cons, hx]

/-- With a falsy `page_size` (absent or zero or negative... zero) the loop
never breaks: it returns all kept entries, the timestamp of the last of them,
and `last_read_index` reaches the end. -/
theorem listWalk_noBreak (cm : Int) (tokId : Option String) (ps : Option Int)
    (hps : ∀ n : Nat, ¬ (psTruthy ps = true ∧ ((n + 1 : Nat) : Int) = ps.getD 0)) :
    ∀ (l : List (Int × String)) (taken : Nat) (lastTs : Int),
      listWalk cm tokId ps taken lastTs l =
        ⟨(l.filter (keepB cm tokId)).map Prod.snd,
         lastTsD lastTs (l.filter (keepB cm tokId)), true⟩ := by
  intro l
  induction l with
  | nil => intro taken lastTs; rfl
  | cons e rest ih =>
    intro taken lastTs
    obtain ⟨ts, rid⟩ := e
    rw [listWalk]
    by_cases hc1 : ts < cm
    · have hk : keepB cm tokId (ts, rid) = false := by rw [keepB, if_pos hc1]
      rw [if_pos hc1, ih, List.filter_cons_of_neg (by simp [hk])]
    · rw [if_neg hc1]
      by_cases hc2 : ts = cm ∧ tokTruthy tokId = true ∧ strLeB rid (tokId.getD "") = true
      · have hk : keepB cm tokId (ts, rid) = false := by
          rw [keepB, if_neg hc1, if_pos hc2]
        rw [if_pos hc2, ih, List.filter_cons_of_neg (by simp [hk])]
      · have hk : keepB cm tokId (ts, rid) = true := by
          rw [keepB, if_neg hc1, if_neg hc2]
        rw [if_neg hc2, if_neg (hps taken), ih, List.filter_cons_of_pos (by simp [hk]),
          List.map_cons, lastTsD_cons]

theorem isEmpty_eq_decide_length {α : Type} (l : List α) :
    l.isEmpty = decide (l.length + 1 ≤ 1) := by
  cases l <;> simp

/-- With a truthy positive `page_size` `k` and `taken` entries already on the
page, the loop over a sorted tail returns the next `k - taken` kept entries;
`last_read_index` reaches the end exactly when no kept entries remain beyond
them. -/
theorem listWalk_limit (cm : Int) (tokId : Option String) (k : Int) :
    ∀ (l : List (Int × String)) (taken : Nat) (lastTs : Int),
      l.Pairwise elex → (taken : Int) < k →
      listWalk cm tokId (some k) taken lastTs l =
        ⟨((l.filter (keepB cm tokId)).take (k - taken).toNat).map Prod.snd,
         lastTsD lastTs ((l.filter (keepB cm tokId)).take (k - taken).toNat),
         decide ((l.filter (keepB cm tokId)).length ≤ (k - taken).toNat)⟩ := by
  intro l
  induction l with
  | nil =>
    intro taken lastTs _ _
    rw [listWalk]
    simp [lastTsD]
  | cons e rest ih =>
    intro taken lastTs hs hlt
    obtain ⟨ts, rid⟩ := e
    rw [listWalk]
    by_cases hc1 : ts < cm
    · have hk : keepB cm tokId (ts, rid) = false := by rw [keepB, if_pos hc1]
      rw [if_pos hc1, ih taken lastTs hs.of_cons hlt,
        List.filter_cons_of_neg (by simp [hk])]
    · rw [if_neg hc1]
      by_cases hc2 : ts = cm ∧ tokTruthy tokId = true ∧ strLeB rid (tokId.getD "") = true
      · have hk : keepB cm tokId (ts, rid) = false := by
          rw [keepB, if_neg hc1, if_pos hc2]
        rw [if_pos hc2, ih taken lastTs hs.of_cons hlt,
          List.filter_cons_of_neg (by simp [hk])]
      · have hk : keepB cm tokId (ts, rid) = true := by
          rw [keepB, if_neg hc1, if_neg hc2]
        rw [if_neg hc2]
        have hfl : ((ts, rid) :: rest).filter (keepB cm tokId) = (ts, rid) :: rest :=
          filter_keepB_of_head hs hk
        have hfr : rest.filter (keepB cm tokId) = rest := by
          rw [List.filter_cons_of_pos (by simp [hk])] at hfl
          exact List.cons_injective.eq_iff.mp hfl
        by_cases hc3 : psTruthy (some k) = true ∧ ((taken + 1 : Nat) : Int) = (some k).getD 0
        · rw [if_pos hc3]
          have hm1 : (k - taken).toNat = 1 := by
            have := hc3.2
            simp only [Option.getD_some] at this
            push_cast at this
            omega
          rw [hfl, hm1]
          have ht1 : ((ts, rid) :: rest).take 1 = [(ts, rid)] := rfl
          rw [ht1]
          have hlen : (((ts, rid) :: rest).length ≤ 1) ↔ (rest.length + 1 ≤ 1) := by
            simp
          rw [WalkOut.mk.injEq]
          refine ⟨rfl, rfl, ?_⟩
          rw [isEmpty_eq_decide_length, decide_eq_decide]
          simp
        · rw [if_neg hc3]
          have hps : psTruthy (some k) = true := by
            simp only [psTruthy, ne_eq, decide_eq_true_eq]
            omega
          have hne : ((taken + 1 : Nat) : Int) ≠ k := by
            intro h
            exact hc3 ⟨hps, by simpa using h⟩
          have hlt2 : ((taken + 1 : Nat) : Int) < k := by push_cast at *; omega
          rw [ih (taken + 1) ts hs.of_cons hlt2, hfl, hfr]
          have hm : (k - taken).toNat = (k - (taken + 1 : Nat)).toNat + 1 := by
            push_cast
            omega
          rw [hm, List.take_succ_cons, List.map_cons, lastTsD_cons]
          rw [WalkOut.mk.injEq]
          refine ⟨rfl, rfl, ?_⟩
          rw [decide_eq_decide]
          simp only [List.length_cons]
          omega

/-- The loop only breaks after appending: a run that did not reach the end of
the sorted sequence has a non-empty page. -/
theorem listWalk_page_ne_nil (cm : Int) (tokId : Option String) (ps : Option Int) :
    ∀ (l : List (Int × String)) (taken : Nat) (lastTs : Int),
      (listWalk cm tokId ps taken lastTs l).consumedAll = false →
      (listWalk cm tokId ps taken lastTs l).page ≠ [] := by
  intro l
  induction l with
  | nil => intro taken lastTs h; exact absurd h (by rw [listWalk]; simp)
  | cons e rest ih =>
    intro taken lastTs
    obtain ⟨ts, rid⟩ := e
    rw [listWalk]
    by_cases hc1 : ts < cm
    · rw [if_pos hc1]; exact ih taken lastTs
    · rw [if_neg hc1]
      by_cases hc2 : ts = cm ∧ tokTruthy tokId = true ∧ strLeB rid (tokId.getD "") = true
      · rw [if_pos hc2]; exact ih taken lastTs
      · rw [if_neg hc2]
        by_cases hc3 : psTruthy ps = true ∧ ((taken + 1 : Nat) : Int) = ps.getD 0
        · rw [if_pos hc3]; intro _; simp
        · rw [if_neg hc3]; intro _; simp

/-! ## Token round-trip and single-call characterization of `list` -/

theorem string_mk_toList (s : String) : String.mk s.toList = s := by
  cases s with
  | mk d => rfl

theorem encodeTokenStr_toList (t : Int) (id : String) :
    (encodeTokenStr t id).toList = pyStrL t ++ ':' :: id.toList := by
  rw [encodeTokenStr]
  show ((pyStr t ++ ":") ++ id).data = _
  rw [String.data_append, String.data_append, List.append_assoc]
  rfl

theorem encodeTokenStr_ne_empty (t : Int) (id : String) : encodeTokenStr t id ≠ "" := by
  intro h
  have h2 : (encodeTokenStr t id).toList = [] := by rw [h]; rfl
  rw [encodeTokenStr_toList] at h2
  simp at h2

theorem decode_encode_token (t : Int) (id : String)
    (hcolon : ∀ c ∈ id.toList, c ≠ ':') :
    decodeTokenStr (encodeTokenStr t id) = .ok (t, id) := by
  rw [decodeTokenStr, encodeTokenStr_toList,
    splitColon_append (fun c hc => pyStrL_no_colon t c hc), splitColon_no_colon hcolon]
  show (match pyParseIntL (pyStrL t) with
        | some n => Except.ok (n, String.mk id.toList)
        | none => Except.error Err.invalidToken) = Except.ok (t, id)
  rw [pyParseIntL_pyStrL, string_mk_toList]

theorem listCore_eval_none (entries : List (Int × String)) (minTs : Int) (ps : Option Int) :
    listCore entries minTs none ps = listTail (sortEntries entries) minTs none ps := rfl

theorem listCore_eval_token (entries : List (Int × String)) (minTs : Int) (ps : Option Int)
    (t : Int) (id : String) (hcolon : ∀ c ∈ id.toList, c ≠ ':')
    (hM : minTs ≤ t) :
    listCore entries minTs (some (encodeTokenStr t id)) ps =
      listTail (sortEntries entries) t (some id) ps := by
  have hmax : max t minTs = t := max_eq_left hM
  have step : listCore entries minTs (some (encodeTokenStr t id)) ps =
      listTail (sortEntries entries) (max t minTs) (some id) ps := by
    rw [listCore, decodePageToken, if_pos (encodeTokenStr_ne_empty t id),
      decode_encode_token t id hcolon]
    rfl
  rw [step, hmax]

/-- Single call of the pagination tail with a positive page size, on a sorted
sequence: the page is the first `k` kept entries; the token is empty exactly
when no kept entries remain, and otherwise encodes the pair of the page's
last entry. -/
theorem listTail_limit (sorted : List (Int × String)) (cm : Int) (tokId : Option String)
    (k : Int) (hs : sorted.Pairwise elex) (hk : 1 ≤ k) :
    listTail sorted cm tokId (some k) =
      (if (sorted.filter (keepB cm tokId)).length ≤ k.toNat then
        Except.ok (((sorted.filter (keepB cm tokId)).map Prod.snd : List String), "")
       else
        match ((sorted.filter (keepB cm tokId)).take k.toNat).getLast? with
        | none => Except.error Err.indexError
        | some b =>
          Except.ok ((((sorted.filter (keepB cm tokId)).take k.toNat).map Prod.snd :
            List String), encodeTokenStr b.1 b.2)) := by
  rw [listTail, listWalk_limit cm tokId k sorted 0 0 hs (by omega)]
  have hk0 : (k - (0 : Nat)).toNat = k.toNat := by push_cast; omega
  rw [hk0]
  by_cases hR : (sorted.filter (keepB cm tokId)).length ≤ k.toNat
  · rw [if_pos hR]
    have : decide ((sorted.filter (keepB cm tokId)).length ≤ k.toNat) = true := by
      simp [hR]
    simp only [this, if_true]
    rw [List.take_of_length_le hR]
  · rw [if_neg hR]
    have hd : decide ((sorted.filter (keepB cm tokId)).length ≤ k.toNat) = false := by
      simp [hR]
    simp only [hd, Bool.false_eq_true, if_false]
    obtain ⟨b, hb⟩ : ∃ b, ((sorted.filter (keepB cm tokId)).take k.toNat).getLast? = some b := by
      rcases ht : (sorted.filter (keepB cm tokId)).take k.toNat with _ | ⟨x, xs⟩
      · exfalso
        have h9 := congrArg List.length ht
        rw [List.length_take] at h9
        simp only [List.length_nil] at h9
        have hk1 : 1 ≤ k.toNat := by omega
        omega
      · obtain ⟨x2, hx2⟩ := getLast?_cons_some x xs
        exact ⟨x2, hx2⟩
    rw [List.getLast?_map, hb]
    have hlt : lastTsD 0 ((sorted.filter (keepB cm tokId)).take k.toNat) = b.1 := by
      rw [lastTsD, hb]
    rw [hlt]
    rfl

/-- Single call of the pagination tail with a falsy page size: everything
kept, in one page, with an empty token. -/
theorem listTail_noBreak (sorted : List (Int × String)) (cm : Int) (tokId : Option String)
    (ps : Option Int)
    (hps : ∀ n : Nat, ¬ (psTruthy ps = true ∧ ((n + 1 : Nat) : Int) = ps.getD 0)) :
    listTail sorted cm tokId ps =
      Except.ok (((sorted.filter (keepB cm tokId)).map Prod.snd : List String), "") := by
  rw [listTail, listWalk_noBreak cm tokId ps hps]
  rfl

/-! ## The pagination protocol is complete and stable -/

theorem bool_eq_of_iff {a b : Bool} (h : a = true ↔ b = true) : a = b := by
  cases a <;> cases b <;> simp_all

/-- In a strictly sorted list, the entries strictly beyond the element at
index `i` are exactly the entries after it. -/
theorem filter_eltxB_of_sorted :
    ∀ (R : List (Int × String)), R.Pairwise eltx → ∀ (i : Nat) (h : i < R.length),
      R.filter (fun e => eltxB (R.get ⟨i, h⟩) e) = R.drop (i + 1) := by
  intro R
  induction R with
  | nil => intro _ i h; simp at h
  | cons e rest ih =>
    intro hp i h
    cases i with
    | zero =>
      have hget : (e :: rest).get ⟨0, h⟩ = e := rfl
      rw [hget, List.filter_cons_of_neg (by
        cases hbe : eltxB e e with
        | false => simp
        | true => exact absurd (eltxB_iff.mp hbe) (eltx_irrefl e))]
      rw [List.filter_eq_self.mpr
        (fun b hb => eltxB_iff.mpr ((List.pairwise_cons.mp hp).1 b hb))]
      rfl
    | succ j =>
      have hj : j < rest.length := by simpa using h
      have hget : (e :: rest).get ⟨j + 1, h⟩ = rest.get ⟨j, hj⟩ := rfl
      rw [hget]
      have hmem : rest.get ⟨j, hj⟩ ∈ rest := List.get_mem rest j hj
      have hee : eltx e (rest.get ⟨j, hj⟩) := (List.pairwise_cons.mp hp).1 _ hmem
      rw [List.filter_cons_of_neg (by
        cases hbe : eltxB (rest.get ⟨j, hj⟩) e with
        | false => simp
        | true => exact absurd (eltxB_iff.mp hbe) (eltx_asymm hee))]
      rw [ih (List.pairwise_cons.mp hp).2 j hj]
      rfl

/-- Resuming from the pair of the `m`-th kept entry leaves exactly the kept
entries after the first `m`. -/
theorem remaining_step (S : List (Int × String)) (pB : (Int × String) → Bool)
    (hup : ∀ a b, elex a b → pB a = true → pB b = true)
    (hstrict : S.Pairwise eltx)
    (m : Nat) (hm : 1 ≤ m) (b : Int × String)
    (hb : ((S.filter pB).take m).getLast? = some b)
    (hmlen : m < (S.filter pB).length)
    (hbid : b.2 ≠ "") :
    S.filter (keepB b.1 (some b.2)) = (S.filter pB).drop m := by
  have hRstrict : (S.filter pB).Pairwise eltx := hstrict.filter pB
  have h9 : m - 1 < (S.filter pB).length := by omega
  have hgb : (S.filter pB).get ⟨m - 1, h9⟩ = b := by
    rw [List.getLast?_eq_getElem?, List.length_take] at hb
    have hmin : min m (S.filter pB).length = m := by omega
    rw [hmin, List.getElem?_take, if_pos (by omega : m - 1 < m),
      List.getElem?_eq_getElem h9] at hb
    have := Option.some.inj hb
    rw [List.get_eq_getElem]
    exact this
  have hbmem : b ∈ S.filter pB := by
    rw [← hgb]
    exact List.get_mem _ _ _
  have hpb : pB b = true := List.of_mem_filter hbmem
  have hkeq : ∀ e, keepB b.1 (some b.2) e = eltxB b e := by
    intro e
    apply bool_eq_of_iff
    rw [keepB_token_iff hbid, eltxB_iff]
  have hfe : S.filter (keepB b.1 (some b.2)) = S.filter (fun e => eltxB b e) :=
    List.filter_congr (fun e _ => hkeq e)
  have hfe2 : (S.filter pB).filter (fun e => eltxB b e) = S.filter (fun e => eltxB b e) := by
    rw [List.filter_filter]
    apply List.filter_congr
    intro e _
    cases hbe : eltxB b e with
    | false => simp
    | true =>
      have hpe : pB e = true := hup b e (elex_of_eltx (eltxB_iff.mp hbe)) hpb
      simp [hpe]
  rw [hfe, ← hfe2]
  have hdrop := filter_eltxB_of_sorted (S.filter pB) hRstrict (m - 1) h9
  rw [hgb] at hdrop
  rw [hdrop]
  congr 1
  omega

/-- The token states reachable by the protocol: either no token yet, or a
token encoding a kept pair, with the remaining entries `R` determined by it. -/
def goodTok (S : List (Int × String)) (minTs : Int) (R : List (Int × String)) :
    Option String → Prop
  | none => R = S.filter (keepB minTs none)
  | some tokStr => ∃ t id, tokStr = encodeTokenStr t id ∧ id ≠ "" ∧
      (∀ c ∈ id.toList, c ≠ ':') ∧ minTs ≤ t ∧ R = S.filter (keepB t (some id))

/-- The continuation of one protocol round. -/
def collectCont (f : Nat) (fs : FS) (globStr : String) (minTs : Int) (ps : Option Int)
    (res : List String × String) : Except Err (List String) :=
  if res.2 = "" then Except.ok res.1
  else do
    let rest ← collectPages f fs globStr minTs ps (some res.2)
    Except.ok (res.1 ++ rest)

theorem collectPages_succ (f : Nat) (fs : FS) (globStr : String) (minTs : Int)
    (ps : Option Int) (tok : Option String) :
    collectPages (f + 1) fs globStr minTs ps tok =
      (listFS fs globStr minTs tok ps) >>= collectCont f fs globStr minTs ps := rfl

theorem eltx_fst_le {t : Int} {id : String} {e : Int × String} (h : eltx (t, id) e) :
    t ≤ e.1 := by
  rcases h with h | ⟨h, _⟩
  · exact le_of_lt h
  · exact le_of_eq h

/-- One protocol round: the page holds the first `k` remaining entries, and
following the returned token (if any) collects the rest. -/
theorem collect_one_call (f : Nat) (fs : FS) (globStr : String) (minTs k : Int)
    (hk : 1 ≤ k) (S : List (Int × String)) (cm : Int) (tokId : Option String)
    (hslex : S.Pairwise elex) (hstrict : S.Pairwise eltx)
    (hids : ∀ e ∈ S, e.2 ≠ "" ∧ ∀ c ∈ e.2.toList, c ≠ ':')
    (hcm : ∀ e, keepB cm tokId e = true → minTs ≤ e.1)
    (hih : ∀ R2 tok2, R2.length < f → goodTok S minTs R2 tok2 →
      collectPages f fs globStr minTs (some k) tok2 = .ok (R2.map Prod.snd))
    (hlen : (S.filter (keepB cm tokId)).length < f + 1) :
    (listTail S cm tokId (some k)) >>= collectCont f fs globStr minTs (some k) =
      .ok ((S.filter (keepB cm tokId)).map Prod.snd) := by
  rw [listTail_limit S cm tokId k hslex hk]
  by_cases hRk : (S.filter (keepB cm tokId)).length ≤ k.toNat
  · rw [if_pos hRk]
    show collectCont f fs globStr minTs (some k)
      ((S.filter (keepB cm tokId)).map Prod.snd, "") = _
    rw [collectCont, if_pos rfl]
  · rw [if_neg hRk]
    have hk1 : 1 ≤ k.toNat := by omega
    obtain ⟨b, hb⟩ : ∃ b, ((S.filter (keepB cm tokId)).take k.toNat).getLast? = some b := by
      rcases ht : (S.filter (keepB cm tokId)).take k.toNat with _ | ⟨x, xs⟩
      · exfalso
        have h9 := congrArg List.length ht
        rw [List.length_take] at h9
        simp only [List.length_nil] at h9
        omega
      · obtain ⟨x2, hx2⟩ := getLast?_cons_some x xs
        exact ⟨x2, hx2⟩
    rw [hb]
    show collectCont f fs globStr minTs (some k)
      (((S.filter (keepB cm tokId)).take k.toNat).map Prod.snd, encodeTokenStr b.1 b.2) = _
    rw [collectCont]
    rw [if_neg (encodeTokenStr_ne_empty b.1 b.2)]
    have hbmem : b ∈ S.filter (keepB cm tokId) :=
      List.take_subset _ _ (List.mem_of_mem_getLast? hb)
    have hbS : b ∈ S := List.mem_of_mem_filter hbmem
    obtain ⟨hbne, hbcolon⟩ := hids b hbS
    have hbkeep : keepB cm tokId b = true := List.of_mem_filter hbmem
    have hminb : minTs ≤ b.1 := hcm b hbkeep
    have hdrop : S.filter (keepB b.1 (some b.2)) = (S.filter (keepB cm tokId)).drop k.toNat :=
      remaining_step S (keepB cm tokId) (fun a b2 hab ha => keepB_mono hab ha) hstrict
        k.toNat hk1 b hb (by omega) hbne
    have hrec := hih ((S.filter (keepB cm tokId)).drop k.toNat)
      (some (encodeTokenStr b.1 b.2))
      (by rw [List.length_drop]; omega)
      ⟨b.1, b.2, rfl, hbne, hbcolon, hminb, hdrop.symm⟩
    rw [hrec]
    show Except.ok (((S.filter (keepB cm tokId)).take k.toNat).map Prod.snd ++
      ((S.filter (keepB cm tokId)).drop k.toNat).map Prod.snd) = _
    rw [← List.map_append, List.take_append_drop]

/-- The protocol collects, page size `k` at a time, exactly the remaining
entries of any reachable token state. -/
theorem collect_aux (fs : FS) (globStr : String) (minTs k : Int)
    (es : List (Int × String))
    (hE : entriesOf fs globStr = .ok es) (hk : 1 ≤ k)
    (hstrict : (sortEntries es).Pairwise eltx)
    (hids : ∀ e ∈ sortEntries es, e.2 ≠ "" ∧ ∀ c ∈ e.2.toList, c ≠ ':') :
    ∀ (fuel : Nat) (R : List (Int × String)) (tok : Option String),
      R.length < fuel → goodTok (sortEntries es) minTs R tok →
      collectPages fuel fs globStr minTs (some k) tok = .ok (R.map Prod.snd) := by
  intro fuel
  induction fuel with
  | zero => intro R tok h _; omega
  | succ f ih =>
    intro R tok hlen hgt
    rw [collectPages_succ]
    have hlf : listFS fs globStr minTs tok (some k) = listCore es minTs tok (some k) := by
      rw [listFS, hE]
      rfl
    rw [hlf]
    cases tok with
    | none =>
      have hR : R = (sortEntries es).filter (keepB minTs none) := hgt
      rw [listCore_eval_none, hR]
      exact collect_one_call f fs globStr minTs k hk (sortEntries es) minTs none
        (sortEntries_sorted es) hstrict hids
        (fun e he => keepB_none_iff.mp he)
        ih (hR ▸ hlen)
    | some tokStr =>
      obtain ⟨t, id, rfl, hidne, hcolon, hMt, hR⟩ := hgt
      rw [listCore_eval_token es minTs (some k) t id hcolon hMt, hR]
      exact collect_one_call f fs globStr minTs k hk (sortEntries es) t (some id)
        (sortEntries_sorted es) hstrict hids
        (fun e he => le_trans hMt (eltx_fst_le ((keepB_token_iff hidne).mp he)))
        ih (hR ▸ hlen)

/-- C1 (pagination completeness and stability): for a fixed store whose glob
enumeration recovers the (timestamp, identifier) entries `es` — pairwise
distinct, non-empty, colon-free identifiers — and any fixed `min_timestamp`
and page size `k ≥ 1`, repeatedly calling `list` with the previous call's
next-token until the token is empty concatenates to exactly the canonical
ascending (timestamp, identifier) enumeration of the matching entries,
independent of `k`; each matching identifier appears exactly once, and an
identifier appears iff some entry carries it with a timestamp at or above
`min_timestamp`. -/
theorem pagination_complete
    (fs : FS) (globStr : String) (minTs k : Int) (es : List (Int × String))
    (hE : entriesOf fs globStr = .ok es)
    (hk : 1 ≤ k)
    (hnd : (es.map Prod.snd).Nodup)
    (hids : ∀ e ∈ es, e.2 ≠ "" ∧ ∀ c ∈ e.2.toList, c ≠ ':') :
    collectPages (es.length + 1) fs globStr minTs (some k) none =
        .ok (canonicalOfEntries es minTs) ∧
    (canonicalOfEntries es minTs).Nodup ∧
    (∀ id, id ∈ canonicalOfEntries es minTs ↔ ∃ t, (t, id) ∈ es ∧ minTs ≤ t) := by
  have hstrict := sortEntries_strict hnd
  have hids2 : ∀ e ∈ sortEntries es, e.2 ≠ "" ∧ ∀ c ∈ e.2.toList, c ≠ ':' :=
    fun e he => hids e (mem_sortEntries.mp he)
  have hcanon : canonicalOfEntries es minTs =
      ((sortEntries es).filter (keepB minTs none)).map Prod.snd := by
    rw [canonicalOfEntries]
    congr 1
    apply List.filter_congr
    intro e _
    apply bool_eq_of_iff
    rw [keepB_none_iff]
    simp
  refine ⟨?_, ?_, ?_⟩
  · rw [hcanon]
    apply collect_aux fs globStr minTs k es hE hk hstrict hids2 (es.length + 1) _ none _ rfl
    calc ((sortEntries es).filter (keepB minTs none)).length
        ≤ (sortEntries es).length := List.length_filter_le _ _
      _ = es.length := (sortEntries_perm es).length_eq
      _ < es.length + 1 := by omega
  · have hnd2 : ((sortEntries es).map Prod.snd).Nodup :=
      (((sortEntries_perm es).map Prod.snd).nodup_iff).mpr hnd
    rw [canonicalOfEntries]
    exact hnd2.sublist (((sortEntries es).filter_sublist).map Prod.snd)
  · intro id0
    rw [canonicalOfEntries]
    constructor
    · intro h
      obtain ⟨e, he, rfl⟩ := List.mem_map.mp h
      obtain ⟨heS, het⟩ := List.mem_filter.mp he
      exact ⟨e.1, mem_sortEntries.mp heS, of_decide_eq_true het⟩
    · rintro ⟨t, htm, hle⟩
      exact List.mem_map.mpr
        ⟨(t, id0), List.mem_filter.mpr ⟨mem_sortEntries.mpr htm, by simpa⟩, rfl⟩

/-- Concrete witness for C1: three snapshots with timestamps 1 < 2 < 3,
paged with `page_size = 1`. -/
theorem pagination_complete_witness :
    entriesOf
        [("projects/p/brains/b/snapshots/s1/resource.0000000000000001", Bytes.raw "x"),
         ("projects/p/brains/b/snapshots/s2/resource.0000000000000002", Bytes.raw "y"),
         ("projects/p/brains/b/snapshots/s3/resource.0000000000000003", Bytes.raw "z")]
        "projects/p/brains/b/snapshots/*" =
      .ok [((1 : Int), "projects/p/brains/b/snapshots/s1"),
           ((2 : Int), "projects/p/brains/b/snapshots/s2"),
           ((3 : Int), "projects/p/brains/b/snapshots/s3")] ∧
    (1 : Int) ≤ 1 ∧
    collectPages 4
        [("projects/p/brains/b/snapshots/s1/resource.0000000000000001", Bytes.raw "x"),
         ("projects/p/brains/b/snapshots/s2/resource.0000000000000002", Bytes.raw "y"),
         ("projects/p/brains/b/snapshots/s3/resource.0000000000000003", Bytes.raw "z")]
        "projects/p/brains/b/snapshots/*" 0 (some 1) none =
      .ok (canonicalOfEntries
        [((1 : Int), "projects/p/brains/b/snapshots/s1"),
         ((2 : Int), "projects/p/brains/b/snapshots/s2"),
         ((3 : Int), "projects/p/brains/b/snapshots/s3")] 0) := by
  have hE : entriesOf
      [("projects/p/brains/b/snapshots/s1/resource.0000000000000001", Bytes.raw "x"),
       ("projects/p/brains/b/snapshots/s2/resource.0000000000000002", Bytes.raw "y"),
       ("projects/p/brains/b/snapshots/s3/resource.0000000000000003", Bytes.raw "z")]
      "projects/p/brains/b/snapshots/*" =
      .ok [((1 : Int), "projects/p/brains/b/snapshots/s1"),
           ((2 : Int), "projects/p/brains/b/snapshots/s2"),
           ((3 : Int), "projects/p/brains/b/snapshots/s3")] := by rfl
  refine ⟨hE, by norm_num, ?_⟩
  exact (pagination_complete _ _ 0 1 _ hE (by norm_num) (by decide) (by decide)).1

/-! ## Page size zero and the empty-page/token safety of `list` -/

theorem canonical_eq_keepB (es : List (Int × String)) (minTs : Int) :
    canonicalOfEntries es minTs =
      ((sortEntries es).filter (keepB minTs none)).map Prod.snd := by
  rw [canonicalOfEntries]
  congr 1
  apply List.filter_congr
  intro e _
  apply bool_eq_of_iff
  rw [keepB_none_iff]
  simp

theorem noBreak_of_nonpos {k : Int} (hk : k ≤ 0) :
    ∀ n : Nat, ¬ (psTruthy (some k) = true ∧ ((n + 1 : Nat) : Int) = (some k).getD 0) := by
  rintro n ⟨_, heq⟩
  simp only [Option.getD_some] at heq
  omega

theorem noBreak_of_none :
    ∀ n : Nat, ¬ (psTruthy (none : Option Int) = true ∧
      ((n + 1 : Nat) : Int) = (none : Option Int).getD 0) := by
  rintro n ⟨h, _⟩
  simp [psTruthy] at h

theorem listCore_ps_eq (entries : List (Int × String)) (minTs : Int) (tok : Option String)
    (k : Int) (hk : k ≤ 0) :
    listCore entries minTs tok (some k) = listCore entries minTs tok none := by
  rw [listCore, listCore]
  cases htk : decodePageToken minTs tok with
  | error e => rfl
  | ok ct =>
    show listTail (sortEntries entries) ct.1 ct.2 (some k) =
      listTail (sortEntries entries) ct.1 ct.2 none
    rw [listTail_noBreak _ _ _ _ (noBreak_of_nonpos hk),
      listTail_noBreak _ _ _ _ noBreak_of_none]

theorem entriesOfAux_error :
    ∀ (files : List String) (e : Err),
      entriesOfAux files = .error e → e = .valueError := by
  intro files
  induction files with
  | nil =>
    intro e h
    exact absurd h (by rw [entriesOfAux]; intro hc; exact Except.noConfusion hc)
  | cons f rest ih =>
    intro e h
    rw [entriesOfAux] at h
    cases hp : pyParseInt (String.mk ((basenameL f.toList).drop 9)) with
    | none =>
      rw [hp] at h
      exact (Except.error.inj h).symm
    | some t =>
      rw [hp] at h
      cases ha : entriesOfAux rest with
      | error e2 =>
        rw [ha] at h
        have he : e2 = e := Except.error.inj h
        exact he ▸ ih e2 ha
      | ok tail =>
        rw [ha] at h
        exact absurd h (fun hc => Except.noConfusion hc)

theorem decodeTokenStr_error {s : String} {e : Err}
    (h : decodeTokenStr s = .error e) : e = .invalidToken := by
  rw [decodeTokenStr] at h
  rcases hsp : splitColon s.toList with _ | ⟨a, _ | ⟨b, _ | ⟨c, rest⟩⟩⟩ <;> rw [hsp] at h
  · exact (Except.error.inj h).symm
  · exact (Except.error.inj h).symm
  · have h2 : (match pyParseIntL a with
        | some n => Except.ok (n, String.mk b)
        | none => Except.error Err.invalidToken) = Except.error e := h
    cases hp : pyParseIntL a with
    | none => rw [hp] at h2; exact (Except.error.inj h2).symm
    | some n => rw [hp] at h2; exact absurd h2 (fun hc => Except.noConfusion hc)
  · exact (Except.error.inj h).symm

theorem decodePageToken_error {minTs : Int} {tok : Option String} {e : Err}
    (h : decodePageToken minTs tok = .error e) : e = .invalidToken := by
  cases tok with
  | none => exact absurd h (fun hc => Except.noConfusion hc)
  | some s =>
    rw [decodePageToken] at h
    by_cases hs : s ≠ ""
    · rw [if_pos hs] at h
      cases hd : decodeTokenStr s with
      | error e2 =>
        rw [hd] at h
        have h2 : (Except.error e2 : Except Err (Int × Option String)) = .error e := h
        exact (Except.error.inj h2) ▸ decodeTokenStr_error hd
      | ok td =>
        rw [hd] at h
        exact absurd h (fun hc => Except.noConfusion hc)
    · rw [if_neg hs] at h
      exact absurd h (fun hc => Except.noConfusion hc)

theorem listTail_safe (sorted : List (Int × String)) (cm : Int) (tokId : Option String)
    (ps : Option Int) :
    listTail sorted cm tokId ps ≠ .error .indexError ∧
    (∀ page token, listTail sorted cm tokId ps = .ok (page, token) →
      page = [] → token = "") := by
  rw [listTail]
  by_cases hca : (listWalk cm tokId ps 0 0 sorted).consumedAll = true
  · rw [if_pos hca]
    refine ⟨fun hc => Except.noConfusion hc, ?_⟩
    intro page token h _
    exact (congrArg Prod.snd (Except.ok.inj h)).symm
  · rw [if_neg hca]
    have havne : (listWalk cm tokId ps 0 0 sorted).page ≠ [] :=
      listWalk_page_ne_nil cm tokId ps sorted 0 0 (Bool.not_eq_true _ ▸ hca)
    obtain ⟨x, hx⟩ : ∃ x, (listWalk cm tokId ps 0 0 sorted).page.getLast? = some x := by
      rcases hpg : (listWalk cm tokId ps 0 0 sorted).page with _ | ⟨y, ys⟩
      · exact absurd hpg havne
      · obtain ⟨x2, hx2⟩ := getLast?_cons_some y ys
        exact ⟨x2, hx2⟩
    rw [hx]
    refine ⟨fun hc => Except.noConfusion hc, ?_⟩
    intro page token h hp
    have h1 : (listWalk cm tokId ps 0 0 sorted).page = page :=
      congrArg Prod.fst (Except.ok.inj h)
    exact absurd (h1.trans hp) havne

/-- C7 (page-size zero is unbounded): `list` with `page_size = 0` — and any
non-positive page size — behaves identically to `page_size = None`; in
particular with no token it returns every matching entry at or above the
minimum timestamp in a single page with an empty next-token, rather than an
empty page. -/
theorem list_page_size_zero_unbounded :
    (∀ (fs : FS) (globStr : String) (minTs : Int) (tok : Option String) (k : Int),
        k ≤ 0 →
        listFS fs globStr minTs tok (some k) = listFS fs globStr minTs tok none) ∧
    (∀ (fs : FS) (globStr : String) (minTs : Int) (es : List (Int × String)),
        entriesOf fs globStr = .ok es →
        listFS fs globStr minTs none (some 0) =
          .ok ((canonicalOfEntries es minTs : List String), "")) := by
  constructor
  · intro fs globStr minTs tok k hk
    rw [listFS, listFS]
    cases hE : entriesOf fs globStr with
    | error e => rfl
    | ok es =>
      show listCore es minTs tok (some k) = listCore es minTs tok none
      exact listCore_ps_eq es minTs tok k hk
  · intro fs globStr minTs es hE
    rw [listFS, hE]
    show listCore es minTs none (some 0) = _
    rw [listCore_eval_none, listTail_noBreak _ _ _ _ (noBreak_of_nonpos (by omega)),
      canonical_eq_keepB]

/-- Concrete witness for C7: one stored resource, `page_size = 0` returns it
(in one page, empty token) exactly like `page_size = None`. -/
theorem list_page_size_zero_unbounded_witness :
    ((0 : Int) ≤ 0) ∧
    entriesOf [("a/resource.0000000000000001", Bytes.raw "x")] "a" =
      .ok [((1 : Int), "a")] ∧
    listFS [("a/resource.0000000000000001", Bytes.raw "x")] "a" 0 none (some 0) =
      listFS [("a/resource.0000000000000001", Bytes.raw "x")] "a" 0 none none ∧
    listFS [("a/resource.0000000000000001", Bytes.raw "x")] "a" 0 none (some 0) =
      .ok ((canonicalOfEntries [((1 : Int), "a")] 0 : List String), "") := by
  refine ⟨le_refl 0, rfl, ?_, ?_⟩
  · exact list_page_size_zero_unbounded.1
      [("a/resource.0000000000000001", Bytes.raw "x")] "a" 0 none 0 (le_refl 0)
  · exact list_page_size_zero_unbounded.2
      [("a/resource.0000000000000001", Bytes.raw "x")] "a" 0 [((1 : Int), "a")] rfl

/-- C9 (implicit safety): `list` never returns normally with an empty page
and a non-empty next-token — an empty page always comes with the empty
token — and the `page[-1]` read in the token construction never raises
`IndexError`. -/
theorem list_no_token_on_empty_page :
    (∀ (fs : FS) (globStr : String) (minTs : Int) (tok : Option String) (ps : Option Int),
        listFS fs globStr minTs tok ps ≠ .error .indexError) ∧
    (∀ (fs : FS) (globStr : String) (minTs : Int) (tok : Option String) (ps : Option Int)
        (page : List String) (token : String),
        listFS fs globStr minTs tok ps = .ok (page, token) → page = [] → token = "") := by
  have key : ∀ (fs : FS) (globStr : String) (minTs : Int) (tok : Option String)
      (ps : Option Int),
      listFS fs globStr minTs tok ps ≠ .error .indexError ∧
      (∀ page token, listFS fs globStr minTs tok ps = .ok (page, token) →
        page = [] → token = "") := by
    intro fs globStr minTs tok ps
    rw [listFS]
    cases hE : entriesOf fs globStr with
    | error e =>
      have hv : e = Err.valueError := entriesOfAux_error _ e hE
      constructor
      · intro hc
        have h2 : (Except.error e : Except Err (List String × String)) =
            .error .indexError := hc
        rw [hv] at h2
        exact Err.noConfusion (Except.error.inj h2)
      · intro page token h _
        have h2 : (Except.error e : Except Err (List String × String)) =
            .ok (page, token) := h
        exact absurd h2 (fun hc => Except.noConfusion hc)
    | ok es =>
      show listCore es minTs tok ps ≠ .error .indexError ∧
        (∀ page token, listCore es minTs tok ps = .ok (page, token) →
          page = [] → token = "")
      rw [listCore]
      cases hd : decodePageToken minTs tok with
      | error e2 =>
        have hv : e2 = Err.invalidToken := decodePageToken_error hd
        constructor
        · intro hc
          have h2 : (Except.error e2 : Except Err (List String × String)) =
              .error .indexError := hc
          rw [hv] at h2
          exact Err.noConfusion (Except.error.inj h2)
        · intro page token h _
          have h2 : (Except.error e2 : Except Err (List String × String)) =
              .ok (page, token) := h
          exact absurd h2 (fun hc => Except.noConfusion hc)
      | ok ct =>
        show listTail (sortEntries es) ct.1 ct.2 ps ≠ .error .indexError ∧
          (∀ page token, listTail (sortEntries es) ct.1 ct.2 ps = .ok (page, token) →
            page = [] → token = "")
        exact listTail_safe (sortEntries es) ct.1 ct.2 ps
  exact ⟨fun fs g m t p => (key fs g m t p).1,
    fun fs g m t p pa tk => (key fs g m t p).2 pa tk⟩

/-- Concrete witness for C9: an empty store yields an empty page and the
empty token. -/
theorem list_no_token_on_empty_page_witness :
    listFS [] "a" 0 none none = .ok (([] : List String), "") ∧
    (("" : String) = "") ∧
    listFS [] "a" 0 none none ≠ .error .indexError := by
  refine ⟨rfl, ?_, list_no_token_on_empty_page.1 [] "a" 0 none none⟩
  exact list_no_token_on_empty_page.2 [] "a" 0 none none [] "" rfl rfl

/-! ## Most-recent queries -/

theorem elex_refl (a : Int × String) : elex a a := Or.inr ⟨rfl, strLeB_refl a.2⟩

theorem sorted_elex_getLast :
    ∀ (S : List (Int × String)) (hne : S ≠ []), S.Pairwise elex →
      ∀ e ∈ S, elex e (S.getLast hne) := by
  intro S
  induction S with
  | nil => intro h; exact absurd rfl h
  | cons a l ih =>
    intro hne hs e he
    cases l with
    | nil =>
      rcases List.mem_singleton.mp he with rfl
      exact elex_refl e
    | cons b rest =>
      rw [List.getLast_cons (by simp : b :: rest ≠ [])]
      rcases List.mem_cons.mp he with rfl | he2
      · exact (List.pairwise_cons.mp hs).1 _ (List.getLast_mem (by simp))
      · exact ih (by simp) (List.pairwise_cons.mp hs).2 e he2

/-- C6 (most-recent correctness): with the glob enumeration recovering
entries `es` (all timestamps non-negative), `get_most_recent` returns none
when nothing matches, and otherwise the identifier of an entry that is
greatest in the canonical (timestamp, identifier-string) order among all
matching entries; `get_most_recent_snapshot` is its instantiation at the
snapshot collection glob of the given project and brain. -/
theorem get_most_recent_correct :
    (∀ (fs : FS) (globStr : String) (es : List (Int × String)),
        entriesOf fs globStr = .ok es → (∀ e ∈ es, 0 ≤ e.1) →
        ((es = [] → getMostRecent fs globStr = .ok none) ∧
         (es ≠ [] → ∃ t id, getMostRecent fs globStr = .ok (some id) ∧
            (t, id) ∈ es ∧ ∀ e ∈ es, elex e (t, id)))) ∧
    (∀ (fs : FS) (projectId brainId : String),
        getMostRecentSnapshot fs projectId brainId =
          getMostRecent fs (snapshotGlob projectId brainId)) := by
  constructor
  · intro fs globStr es hE h0
    have hfilter : (sortEntries es).filter (keepB 0 none) = sortEntries es :=
      List.filter_eq_self.mpr
        (fun e he => keepB_none_iff.mpr (h0 e (mem_sortEntries.mp he)))
    have hlist : listFS fs globStr 0 none none =
        .ok (((sortEntries es).map Prod.snd : List String), "") := by
      rw [listFS, hE]
      show listCore es 0 none none = _
      rw [listCore_eval_none, listTail_noBreak _ _ _ _ noBreak_of_none, hfilter]
    constructor
    · intro hnil
      subst hnil
      rw [getMostRecent, hlist]
      rfl
    · intro hnn
      have hSne : sortEntries es ≠ [] := by
        intro hS
        have hlen := (sortEntries_perm es).length_eq
        rw [hS] at hlen
        simp only [List.length_nil] at hlen
        exact hnn (List.length_eq_zero.mp hlen.symm)
      refine ⟨((sortEntries es).getLast hSne).1, ((sortEntries es).getLast hSne).2,
        ?_, ?_, ?_⟩
      · rw [getMostRecent, hlist]
        show Except.ok (((sortEntries es).map Prod.snd).getLast?) = _
        rw [List.getLast?_map, List.getLast?_eq_getLast _ hSne]
        rfl
      · exact mem_sortEntries.mp (List.getLast_mem hSne)
      · intro e he
        exact sorted_elex_getLast (sortEntries es) hSne (sortEntries_sorted es) e
          (mem_sortEntries.mpr he)
  · intro fs projectId brainId
    rfl

/-- Concrete witness for C6: three snapshots at timestamps 1 < 2 < 3; the
most recent is the one at timestamp 3, and the empty store gives none. -/
theorem get_most_recent_correct_witness :
    entriesOf
        [("projects/p/brains/b/snapshots/s1/resource.0000000000000001", Bytes.raw "x"),
         ("projects/p/brains/b/snapshots/s2/resource.0000000000000002", Bytes.raw "y"),
         ("projects/p/brains/b/snapshots/s3/resource.0000000000000003", Bytes.raw "z")]
        (snapshotGlob "p" "b") =
      .ok [((1 : Int), "projects/p/brains/b/snapshots/s1"),
           ((2 : Int), "projects/p/brains/b/snapshots/s2"),
           ((3 : Int), "projects/p/brains/b/snapshots/s3")] ∧
    (∃ t id,
      getMostRecent
        [("projects/p/brains/b/snapshots/s1/resource.0000000000000001", Bytes.raw "x"),
         ("projects/p/brains/b/snapshots/s2/resource.0000000000000002", Bytes.raw "y"),
         ("projects/p/brains/b/snapshots/s3/resource.0000000000000003", Bytes.raw "z")]
        (snapshotGlob "p" "b") = .ok (some id) ∧
      (t, id) ∈ [((1 : Int), "projects/p/brains/b/snapshots/s1"),
                 ((2 : Int), "projects/p/brains/b/snapshots/s2"),
                 ((3 : Int), "projects/p/brains/b/snapshots/s3")] ∧
      ∀ e ∈ [((1 : Int), "projects/p/brains/b/snapshots/s1"),
             ((2 : Int), "projects/p/brains/b/snapshots/s2"),
             ((3 : Int), "projects/p/brains/b/snapshots/s3")], elex e (t, id)) ∧
    getMostRecent ([] : FS) (snapshotGlob "p" "b") = .ok none := by
  have hE : entriesOf
      [("projects/p/brains/b/snapshots/s1/resource.0000000000000001", Bytes.raw "x"),
       ("projects/p/brains/b/snapshots/s2/resource.0000000000000002", Bytes.raw "y"),
       ("projects/p/brains/b/snapshots/s3/resource.0000000000000003", Bytes.raw "z")]
      (snapshotGlob "p" "b") =
      .ok [((1 : Int), "projects/p/brains/b/snapshots/s1"),
           ((2 : Int), "projects/p/brains/b/snapshots/s2"),
           ((3 : Int), "projects/p/brains/b/snapshots/s3")] := rfl
  have hE0 : entriesOf ([] : FS) (snapshotGlob "p" "b") = .ok [] := rfl
  refine ⟨hE, ?_, ?_⟩
  · exact ((get_most_recent_correct.1 _ _ _ hE (by decide)).2 (by decide))
  · exact (get_most_recent_correct.1 ([] : FS) (snapshotGlob "p" "b") [] hE0
      (by decide)).1 rfl

/-! ## Read error semantics -/

theorem decodeResource_error {parts : List String} {d : Bytes} {e : Err}
    (h : decodeResource parts d = .error e) :
    e = .assertionError ∨ e = .unsupportedCollection ∨ e = .decodeError := by
  rw [decodeResource] at h
  cases hg : getProtoType parts with
  | error e2 =>
    rw [hg] at h
    have h2 : (Except.error e2 : Except Err Record) = .error e := h
    have he : e2 = e := Except.error.inj h2
    rw [getProtoType] at hg
    by_cases hlen : parts.length < 2
    · rw [if_pos hlen] at hg
      exact Or.inl ((he.symm).trans (Except.error.inj hg).symm)
    · rw [if_neg hlen] at hg
      cases hsl : secondLast parts with
      | none =>
        rw [hsl] at hg
        exact Or.inl ((he.symm).trans (Except.error.inj hg).symm)
      | some coll =>
        rw [hsl] at hg
        have hg2 : (match protoByCollectionId coll with
            | some t => (Except.ok t : Except Err RecordTag)
            | none => .error .unsupportedCollection) = .error e2 := hg
        cases hp : protoByCollectionId coll with
        | none =>
          rw [hp] at hg2
          have hg3 : (Except.error Err.unsupportedCollection :
              Except Err RecordTag) = .error e2 := hg2
          exact Or.inr (Or.inl ((he.symm).trans (Except.error.inj hg3).symm))
        | some tg =>
          rw [hp] at hg2
          have hg3 : (Except.ok tg : Except Err RecordTag) = .error e2 := hg2
          exact absurd hg3 (fun hc => Except.noConfusion hc)
  | ok tg =>
    rw [hg] at h
    have h2 : protoFromString tg d = .error e := h
    cases d with
    | ofRecord r =>
      have h3 : (if tagOf r = some tg then (Except.ok r : Except Err Record)
          else .error .decodeError) = .error e := h2
      by_cases htag : tagOf r = some tg
      · rw [if_pos htag] at h3
        exact absurd h3 (fun hc => Except.noConfusion hc)
      · rw [if_neg htag] at h3
        exact Or.inr (Or.inr (Except.error.inj h3).symm)
    | raw s =>
      have h3 : (Except.error Err.decodeError : Except Err Record) = .error e := h2
      exact Or.inr (Or.inr (Except.error.inj h3).symm)

/-- C4 (read error semantics, amended): for every identifier,
`read_timestamp_micros` fails `NotFound` exactly when the `resource.*` glob of
its directory has no match, `InternalError` exactly when it has several
matches or its single match's suffix does not parse as an integer, and
returns `t` exactly when the single match parses to `t`.  `read` fails the
same way on those errors, but additionally fails `NotFound` when the file at
the reconstructed canonical zero-padded path for the parsed timestamp is
absent (so a single *non-canonically named* match also reads as `NotFound`),
and otherwise returns the result of decoding that file's bytes. -/
theorem read_error_semantics (fs : FS) (rid : List (String × String)) :
    (readTimestampMicros fs (ridStrOfPairs rid) = .error .notFound ↔
      globFS fs (ridStrOfPairs rid ++ "/resource.*") = []) ∧
    (readTimestampMicros fs (ridStrOfPairs rid) = .error .internalError ↔
      (2 ≤ (globFS fs (ridStrOfPairs rid ++ "/resource.*")).length ∨
       ∃ f, globFS fs (ridStrOfPairs rid ++ "/resource.*") = [f] ∧
         pyParseInt (String.mk ((basenameL f.toList).drop 9)) = none)) ∧
    (∀ t, readTimestampMicros fs (ridStrOfPairs rid) = .ok t ↔
      ∃ f, globFS fs (ridStrOfPairs rid ++ "/resource.*") = [f] ∧
        pyParseInt (String.mk ((basenameL f.toList).drop 9)) = some t) ∧
    (storeRead fs rid = .error .notFound ↔
      (globFS fs (ridStrOfPairs rid ++ "/resource.*") = [] ∨
       ∃ f t, globFS fs (ridStrOfPairs rid ++ "/resource.*") = [f] ∧
         pyParseInt (String.mk ((basenameL f.toList).drop 9)) = some t ∧
         readFile fs (rsGetPath (ridStrOfPairs rid) t) = none)) ∧
    (∀ r, storeRead fs rid = .ok r ↔
      ∃ f t d, globFS fs (ridStrOfPairs rid ++ "/resource.*") = [f] ∧
        pyParseInt (String.mk ((basenameL f.toList).drop 9)) = some t ∧
        readFile fs (rsGetPath (ridStrOfPairs rid) t) = some d ∧
        decodeResource (partsOfPairs rid) d = .ok r) := by
  have hrts : ∀ x, readTimestampMicros fs (ridStrOfPairs rid) = x ↔
      (match globFS fs (ridStrOfPairs rid ++ "/resource.*") with
       | [] => (Except.error Err.notFound : Except Err Int)
       | [f] =>
         match pyParseInt (String.mk ((basenameL f.toList).drop 9)) with
         | some t => .ok t
         | none => .error .internalError
       | _ => .error .internalError) = x := by
    intro x
    rw [readTimestampMicros]
  rcases hg : globFS fs (ridStrOfPairs rid ++ "/resource.*") with _ | ⟨f, _ | ⟨f2, grest⟩⟩
  · have hr : readTimestampMicros fs (ridStrOfPairs rid) = .error .notFound := by
      rw [readTimestampMicros, hg]
    have hsr : storeRead fs rid = .error .notFound := by
      rw [storeRead, hr]
      rfl
    refine ⟨by simp [hr], by simp [hr], ?_, by simp [hsr], ?_⟩
    · intro t
      simp [hr]
    · intro r
      simp [hsr]
  · cases hp : pyParseInt (String.mk ((basenameL f.toList).drop 9)) with
    | some t0 =>
      have hr : readTimestampMicros fs (ridStrOfPairs rid) = .ok t0 := by
        rw [readTimestampMicros, hg]
        show (match pyParseInt (String.mk ((basenameL f.toList).drop 9)) with
          | some t => (Except.ok t : Except Err Int)
          | none => .error .internalError) = .ok t0
        rw [hp]
      refine ⟨by simp [hr], ?_, ?_, ?_, ?_⟩
      · simp only [hr, hp]
        constructor
        · intro hc; exact absurd hc (fun hc2 => Except.noConfusion hc2)
        · rintro (h2 | ⟨f', hf', hp'⟩)
          · simp at h2
          · rw [List.cons.injEq] at hf'
            rw [← hf'.1] at hp'
            rw [hp] at hp'
            exact Option.noConfusion hp'
      · intro t
        simp only [hr, hp]
        constructor
        · intro h2
          exact ⟨f, rfl, by rw [hp, Except.ok.inj h2]⟩
        · rintro ⟨f', hf', hp'⟩
          rw [List.cons.injEq] at hf'
          rw [← hf'.1] at hp'
          rw [hp] at hp'
          rw [Option.some.inj hp']
      · rw [storeRead, hr]
        show (match readFile fs (rsGetPath (ridStrOfPairs rid) t0) with
          | none => (Except.error Err.notFound : Except Err Record)
          | some data => decodeResource (partsOfPairs rid) data) = _ ↔ _
        cases hrf : readFile fs (rsGetPath (ridStrOfPairs rid) t0) with
        | none =>
          simp only
          constructor
          · intro _
            exact Or.inr ⟨f, t0, rfl, hp, hrf⟩
          · intro _
            trivial
        | some d =>
          simp only
          constructor
          · intro hdec
            cases hde : decodeResource (partsOfPairs rid) d with
            | error e2 =>
              rw [hde] at hdec
              have he : e2 = Err.notFound := Except.error.inj hdec
              rcases decodeResource_error hde with h3 | h3 | h3 <;>
                (rw [he] at h3; exact absurd h3 (fun hc => Err.noConfusion hc))
            | ok r2 =>
              rw [hde] at hdec
              exact absurd hdec (fun hc => Except.noConfusion hc)
          · rintro (h2 | ⟨f', t', hf', hp', hrf'⟩)
            · exact absurd h2 (by simp)
            · rw [List.cons.injEq] at hf'
              rw [← hf'.1] at hp'
              rw [hp] at hp'
              rw [← Option.some.inj hp'] at hrf'
              rw [hrf] at hrf'
              exact absurd hrf' (fun hc => Option.noConfusion hc)
      · intro r
        rw [storeRead, hr]
        show (match readFile fs (rsGetPath (ridStrOfPairs rid) t0) with
          | none => (Except.error Err.notFound : Except Err Record)
          | some data => decodeResource (partsOfPairs rid) data) = _ ↔ _
        cases hrf : readFile fs (rsGetPath (ridStrOfPairs rid) t0) with
        | none =>
          simp only
          constructor
          · intro hc; exact absurd hc (fun hc2 => Except.noConfusion hc2)
          · rintro ⟨f', t', d', hf', hp', hrf', _⟩
            rw [List.cons.injEq] at hf'
            rw [← hf'.1] at hp'
            rw [hp] at hp'
            rw [← Option.some.inj hp'] at hrf'
            rw [hrf] at hrf'
            exact absurd hrf' (fun hc => Option.noConfusion hc)
        | some d =>
          simp only
          constructor
          · intro hdec
            exact ⟨f, t0, d, rfl, hp, hrf, hdec⟩
          · rintro ⟨f', t', d', hf', hp', hrf', hdec'⟩
            rw [List.cons.injEq] at hf'
            rw [← hf'.1] at hp'
            rw [hp] at hp'
            have ht : t0 = t' := Option.some.inj hp'
            rw [← ht] at hrf'
            rw [hrf] at hrf'
            rw [← Option.some.inj hrf'] at hdec'
            exact hdec'
    | none =>
      have hr : readTimestampMicros fs (ridStrOfPairs rid) = .error .internalError := by
        rw [readTimestampMicros, hg]
        show (match pyParseInt (String.mk ((basenameL f.toList).drop 9)) with
          | some t => (Except.ok t : Except Err Int)
          | none => .error .internalError) = .error .internalError
        rw [hp]
      have hsr : storeRead fs rid = .error .internalError := by
        rw [storeRead, hr]
        rfl
      refine ⟨by simp [hr], ?_, ?_, ?_, ?_⟩
      · simp only [hr]
        constructor
        · intro _
          exact Or.inr ⟨f, rfl, hp⟩
        · intro _
          trivial
      · intro t
        simp only [hr, hp]
        constructor
        · intro hc; exact absurd hc (fun hc2 => Except.noConfusion hc2)
        · rintro ⟨f', hf', hp'⟩
          rw [List.cons.injEq] at hf'
          rw [← hf'.1] at hp'
          rw [hp] at hp'
          exact Option.noConfusion hp'
      · rw [hsr]
        constructor
        · intro hc
          exact absurd (Except.error.inj hc) (fun hc2 => Err.noConfusion hc2)
        · rintro (h2 | ⟨f', t', hf', hp', _⟩)
          · exact absurd h2 (by simp)
          · rw [List.cons.injEq] at hf'
            rw [← hf'.1] at hp'
            rw [hp] at hp'
            exact absurd hp' (fun hc => Option.noConfusion hc)
      · intro r
        rw [hsr]
        constructor
        · intro hc; exact absurd hc (fun hc2 => Except.noConfusion hc2)
        · rintro ⟨f', t', d', hf', hp', _, _⟩
          rw [List.cons.injEq] at hf'
          rw [← hf'.1] at hp'
          rw [hp] at hp'
          exact absurd hp' (fun hc => Option.noConfusion hc)
  · have hr : readTimestampMicros fs (ridStrOfPairs rid) = .error .internalError := by
      rw [readTimestampMicros, hg]
    have hsr : storeRead fs rid = .error .internalError := by
      rw [storeRead, hr]
      rfl
    refine ⟨by simp [hr], ?_, ?_, ?_, ?_⟩
    · simp only [hr]
      constructor
      · intro _
        left
        simp
      · intro _
        trivial
    · intro t
      simp only [hr]
      constructor
      · intro hc; exact absurd hc (fun hc2 => Except.noConfusion hc2)
      · rintro ⟨f', hf', _⟩
        exact absurd hf' (by simp)
    · rw [hsr]
      constructor
      · intro hc
        exact absurd (Except.error.inj hc) (fun hc2 => Err.noConfusion hc2)
      · rintro (h2 | ⟨f', t', hf', _, _⟩)
        · exact absurd h2 (by simp)
        · exact absurd hf' (by simp)
    · intro r
      rw [hsr]
      constructor
      · intro hc; exact absurd hc (fun hc2 => Except.noConfusion hc2)
      · rintro ⟨f', t', d', hf', _, _, _⟩
        exact absurd hf' (by simp)

/-- Counterexample for C4 as stated: a single, non-canonically named file
`resource.5` — the glob yields exactly one match and its suffix parses, yet
`read` fails with `NotFound` (the reconstructed zero-padded path does not
exist), so `read` does *not* fail `NotFound` exactly when the glob is empty. -/
theorem read_notfound_counterexample :
    ridStrOfPairs [("project", "p")] = "projects/p" ∧
    globFS [("projects/p/resource.5", Bytes.raw "x")] "projects/p/resource.*" =
      ["projects/p/resource.5"] ∧
    pyParseInt "5" = some 5 ∧
    storeRead [("projects/p/resource.5", Bytes.raw "x")] [("project", "p")] =
      .error .notFound := by
  refine ⟨rfl, rfl, rfl, rfl⟩

/-! ## Write-path machinery -/

theorem isPyDigit_ne_slash_star {c : Char} (h : isPyDigit c = true) :
    c ≠ '/' ∧ c ≠ '*' := by
  have hb : 48 ≤ c.toNat ∧ c.toNat ≤ 57 := by
    simp only [isPyDigit, decide_eq_true_eq] at h
    exact h
  constructor <;> rintro rfl <;> simp at hb

theorem fmt016L_no_slash_star (t : Int) : ∀ c ∈ fmt016L t, c ≠ '/' ∧ c ≠ '*' := by
  intro c hc
  rw [fmt016L] at hc
  by_cases ht : t < 0
  · rw [if_pos ht] at hc
    rcases List.mem_cons.mp hc with rfl | hc2
    · exact ⟨by decide, by decide⟩
    · rcases List.mem_append.mp hc2 with h0 | hd
      · rcases List.eq_of_mem_replicate h0 with rfl
        exact ⟨by decide, by decide⟩
      · exact isPyDigit_ne_slash_star (pyStrNatL_digits _ c hd)
  · rw [if_neg ht] at hc
    rcases List.mem_append.mp hc with h0 | hd
    · rcases List.eq_of_mem_replicate h0 with rfl
      exact ⟨by decide, by decide⟩
    · exact isPyDigit_ne_slash_star (pyStrNatL_digits _ c hd)

theorem splitSep_subset {sep : Char} :
    ∀ (l seg : List Char), seg ∈ splitSep sep l → ∀ c ∈ seg, c ∈ l := by
  intro l
  induction l with
  | nil =>
    intro seg hseg c hc
    rw [splitSep] at hseg
    rcases List.mem_singleton.mp hseg with rfl
    simp at hc
  | cons a rest ih =>
    intro seg hseg c hc
    rw [splitSep] at hseg
    rcases h : splitSep sep rest with _ | ⟨x, xs⟩
    · exact absurd h (splitSep_ne_nil sep rest)
    · rw [h] at hseg
      have hseg1 : seg ∈ (if a = sep then [] :: x :: xs else (a :: x) :: xs) := hseg
      by_cases ha : a = sep
      · rw [if_pos ha] at hseg1
        rcases List.mem_cons.mp hseg1 with rfl | hseg2
        · simp at hc
        · exact List.mem_cons_of_mem a (ih seg (by rw [h]; exact hseg2) c hc)
      · rw [if_neg ha] at hseg1
        rcases List.mem_cons.mp hseg1 with rfl | hseg2
        · rcases List.mem_cons.mp hc with rfl | hc2
          · exact List.mem_cons_self c rest
          · exact List.mem_cons_of_mem a
              (ih x (by rw [h]; exact List.mem_cons_self x xs) c hc2)
        · exact List.mem_cons_of_mem a
            (ih seg (by rw [h]; exact List.mem_cons_of_mem x hseg2) c hc)

theorem globSegsMatch_append_self :
    ∀ (xs ps ss : List (List Char)), (∀ seg ∈ xs, '*' ∉ seg) →
      globSegsMatch (xs ++ ps) (xs ++ ss) = globSegsMatch ps ss := by
  intro xs
  induction xs with
  | nil => intro ps ss _; rfl
  | cons x xs2 ih =>
    intro ps ss hstar
    rw [List.cons_append, List.cons_append]
    show (segMatch x x && globSegsMatch (xs2 ++ ps) (xs2 ++ ss)) = globSegsMatch ps ss
    rw [segMatch_self (hstar x (List.mem_cons_self x xs2)),
      ih ps ss (fun seg hs => hstar seg (List.mem_cons_of_mem x hs)), Bool.true_and]

theorem resource_chars_ne (c : Char) (h : c ∈ "resource.".toList) :
    c ≠ '/' ∧ c ≠ '*' := by
  have h2 : c ∈ ['r', 'e', 's', 'o', 'u', 'r', 'c', 'e', '.'] := h
  fin_cases h2 <;> exact ⟨by decide, by decide⟩

theorem rsGetPath_toList (s : String) (t : Int) :
    (rsGetPath s t).toList = s.toList ++ '/' :: ("resource.".toList ++ fmt016L t) := by
  show ((s ++ "/") ++ ("resource." ++ fmt016 t)).data = _
  rw [String.data_append, String.data_append, String.data_append, List.append_assoc]
  rfl

theorem globPat_toList (s : String) :
    (s ++ "/resource.*").toList = s.toList ++ '/' :: "resource.*".toList := by
  show (s ++ "/resource.*").data = _
  rw [String.data_append]
  rfl

theorem globMatch_rsGetPath {s : String} (hstar : '*' ∉ s.toList) (t : Int) :
    globMatch (s ++ "/resource.*") (rsGetPath s t) = true := by
  rw [globMatch, globPat_toList, rsGetPath_toList,
    splitSep_append, splitSep_append,
    @splitSep_no '/' ("resource.*".toList) (by decide),
    @splitSep_no '/' ("resource.".toList ++ fmt016L t)
      (by
        intro c hc
        rcases List.mem_append.mp hc with h9 | hf
        · exact (resource_chars_ne c h9).1
        · exact (fmt016L_no_slash_star t c hf).1),
    globSegsMatch_append_self _ _ _
      (fun seg hs hmem => hstar (splitSep_subset s.toList seg hs '*' hmem))]
  show (segMatch "resource.*".toList ("resource.".toList ++ fmt016L t) &&
    globSegsMatch [] []) = true
  have h1 : "resource.*".toList = "resource.".toList ++ ['*'] := by decide
  rw [h1, segMatch_lit_star (by decide) (fmt016L t)]
  rfl

theorem basenameL_rsGetPath (s : String) (t : Int) :
    basenameL (rsGetPath s t).toList = "resource.".toList ++ fmt016L t := by
  rw [rsGetPath_toList]
  exact basenameL_append (by
    intro hm
    rcases List.mem_append.mp hm with h9 | hf
    · exact (resource_chars_ne '/' h9).1 rfl
    · exact (fmt016L_no_slash_star t '/' hf).1 rfl)

theorem readTimestampMicros_single {fs : FS} {s : String} {ts : Int}
    (h1 : globFS fs (s ++ "/resource.*") = [rsGetPath s ts]) :
    readTimestampMicros fs s = .ok ts := by
  rw [readTimestampMicros, h1]
  show (match pyParseInt (String.mk ((basenameL (rsGetPath s ts).toList).drop 9)) with
    | some t => (Except.ok t : Except Err Int)
    | none => .error .internalError) = .ok ts
  rw [basenameL_rsGetPath]
  have h9 : ("resource.".toList ++ fmt016L ts).drop 9 = fmt016L ts := by
    have : (9 : Nat) = "resource.".toList.length := by decide
    rw [this, List.drop_left]
  rw [h9]
  have hmk : String.mk (fmt016L ts) = fmt016 ts := rfl
  rw [hmk, pyParseInt_fmt016]

theorem readTimestampMicros_empty {fs : FS} {s : String}
    (h1 : globFS fs (s ++ "/resource.*") = []) :
    readTimestampMicros fs s = .error .notFound := by
  rw [readTimestampMicros, h1]

theorem globFS_writeFile (fs : FS) (p : String) (d : Bytes) (pat : String) :
    globFS (writeFile fs p d) pat =
      if (fs.map Prod.fst).contains p then globFS fs pat
      else globFS fs pat ++ (if globMatch pat p then [p] else []) := by
  rw [writeFile]
  by_cases hc : (fs.map Prod.fst).contains p
  · rw [if_pos hc, if_pos hc, globFS, globFS, List.map_map]
    have hmap : ∀ e ∈ fs, (Prod.fst ∘ fun e => if e.1 = p then (p, d) else e) e = e.1 := by
      intro e _
      by_cases h : e.1 = p
      · simp [h]
      · simp [h]
    rw [List.map_congr_left hmap]
  · rw [if_neg hc, if_neg hc, globFS, globFS, List.map_append, List.filter_append]
    congr 1
    show List.filter (fun q => globMatch pat q) [p] = _
    by_cases hm : globMatch pat p = true
    · rw [if_pos hm]
      simp [List.filter, hm]
    · rw [if_neg hm]
      simp only [List.filter, hm]

theorem mem_globFS {fs : FS} {p pat : String}
    (h1 : p ∈ fs.map Prod.fst) (h2 : globMatch pat p = true) :
    p ∈ globFS fs pat := by
  rw [globFS]
  exact List.mem_filter.mpr ⟨h1, h2⟩

theorem getProtoType_error {parts : List String} {e : Err}
    (h : getProtoType parts = .error e) :
    e = .assertionError ∨ e = .unsupportedCollection := by
  rw [getProtoType] at h
  by_cases hlen : parts.length < 2
  · rw [if_pos hlen] at h
    exact Or.inl (Except.error.inj h).symm
  · rw [if_neg hlen] at h
    cases hsl : secondLast parts with
    | none =>
      rw [hsl] at h
      exact Or.inl (Except.error.inj h).symm
    | some coll =>
      rw [hsl] at h
      have h2 : (match protoByCollectionId coll with
          | some t => (Except.ok t : Except Err RecordTag)
          | none => .error .unsupportedCollection) = .error e := h
      cases hp : protoByCollectionId coll with
      | none =>
        rw [hp] at h2
        have h3 : (Except.error Err.unsupportedCollection :
            Except Err RecordTag) = .error e := h2
        exact Or.inr (Except.error.inj h3).symm
      | some tg =>
        rw [hp] at h2
        have h3 : (Except.ok tg : Except Err RecordTag) = .error e := h2
        exact absurd h3 (fun hc => Except.noConfusion hc)

theorem encodeResource_ne_conflict (parts : List String) (r : Record) :
    encodeResource parts r ≠ .error .conflict := by
  intro h
  rw [encodeResource] at h
  cases hg : getProtoType parts with
  | error e2 =>
    rw [hg] at h
    have h2 : (Except.error e2 : Except Err Bytes) = .error .conflict := h
    have he : e2 = .conflict := Except.error.inj h2
    rcases getProtoType_error hg with h3 | h3 <;>
      (rw [he] at h3; exact Err.noConfusion h3)
  | ok expected =>
    rw [hg] at h
    have h2 : (if tagOf r = some expected then .ok (serializeToString r)
        else (Except.error Err.typeMismatch : Except Err Bytes)) = .error .conflict := h
    by_cases htag : tagOf r = some expected
    · rw [if_pos htag] at h2
      exact Except.noConfusion h2
    · rw [if_neg htag] at h2
      exact Err.noConfusion (Except.error.inj h2)

theorem readTimestampMicros_error {fs : FS} {s : String} {e : Err}
    (h : readTimestampMicros fs s = .error e) :
    e = .notFound ∨ e = .internalError := by
  rw [readTimestampMicros] at h
  rcases hg : globFS fs (s ++ "/resource.*") with _ | ⟨f, _ | ⟨f2, grest⟩⟩ <;> rw [hg] at h
  · exact Or.inl (Except.error.inj h).symm
  · have h2 : (match pyParseInt (String.mk ((basenameL f.toList).drop 9)) with
        | some t => (Except.ok t : Except Err Int)
        | none => .error .internalError) = .error e := h
    cases hp : pyParseInt (String.mk ((basenameL f.toList).drop 9)) with
    | some t0 =>
      rw [hp] at h2
      have h3 : (Except.ok t0 : Except Err Int) = .error e := h2
      exact absurd h3 (fun hc => Except.noConfusion hc)
    | none =>
      rw [hp] at h2
      have h3 : (Except.error Err.internalError : Except Err Int) = .error e := h2
      exact Or.inr (Except.error.inj h3).symm
  · exact Or.inr (Except.error.inj h).symm

theorem toResourceId_cases (r : Record) :
    (∃ rid, toResourceId r = .ok rid) ∨ toResourceId r = .error .unsupportedType := by
  cases r <;> first
    | exact Or.inr rfl
    | exact Or.inl ⟨_, rfl⟩

theorem storeWrite_of_id {r : Record} {rid : List (String × String)}
    (now : Int) (fs : FS) (hid : toResourceId r = .ok rid) :
    storeWrite now fs r = storeWriteAfterId now fs r rid := by
  rw [storeWrite, hid]
  rfl

theorem storeWriteAfterId_readOk {fs : FS} {rid : List (String × String)} {t : Int}
    (now : Int) (r : Record)
    (hrt : readTimestampMicros fs (ridStrOfPairs rid) = .ok t) :
    storeWriteAfterId now fs r rid = storeWriteResolve now fs r rid (some t) := by
  rw [storeWriteAfterId, hrt]
  rfl

theorem storeWriteAfterId_readNotFound {fs : FS} {rid : List (String × String)}
    (now : Int) (r : Record)
    (hrt : readTimestampMicros fs (ridStrOfPairs rid) = .error .notFound) :
    storeWriteAfterId now fs r rid = storeWriteResolve now fs r rid none := by
  rw [storeWriteAfterId, hrt]
  rfl

theorem storeWriteAfterId_readErr {fs : FS} {rid : List (String × String)} {e : Err}
    (now : Int) (r : Record)
    (hrt : readTimestampMicros fs (ridStrOfPairs rid) = .error e)
    (he : e ≠ .notFound) :
    storeWriteAfterId now fs r rid = .error e := by
  rw [storeWriteAfterId, hrt]
  cases e <;> first
    | exact absurd rfl he
    | rfl

theorem storeWriteResolve_unset (now : Int) (fs : FS) (r : Record)
    (rid : List (String × String)) (readT : Option Int)
    (hts : getTimestampMicros r = none) :
    storeWriteResolve now fs r rid readT =
      match encodeResource (partsOfPairs rid) (setTimestampMicros r (reconcileTs now readT)) with
      | .error e => .error e
      | .ok data =>
        Except.ok (writeFile fs (rsGetPath (ridStrOfPairs rid) (reconcileTs now readT)) data,
          setTimestampMicros r (reconcileTs now readT), rid) := by
  rw [storeWriteResolve, hts]

theorem storeWriteResolve_set (now : Int) (fs : FS) (r : Record)
    (rid : List (String × String)) (readT : Option Int) (t : Int)
    (hts : getTimestampMicros r = some t) :
    storeWriteResolve now fs r rid readT =
      if (match readT with
          | some rt => decide (rt ≠ 0) && decide (rt ≠ t)
          | none => false) then
        Except.error Err.conflict
      else
        match encodeResource (partsOfPairs rid) r with
        | .error e => .error e
        | .ok data =>
          Except.ok (writeFile fs (rsGetPath (ridStrOfPairs rid) t) data, r, rid) := by
  rw [storeWriteResolve, hts]

theorem storeWriteResolve_unset_ne_conflict (now : Int) (fs : FS) (r : Record)
    (rid : List (String × String)) (readT : Option Int)
    (hts : getTimestampMicros r = none) :
    storeWriteResolve now fs r rid readT ≠ .error .conflict := by
  rw [storeWriteResolve_unset now fs r rid readT hts]
  intro h
  cases he : encodeResource (partsOfPairs rid) (setTimestampMicros r (reconcileTs now readT)) with
  | error e =>
    rw [he] at h
    have h3 : (Except.error e :
        Except Err (FS × Record × List (String × String))) = .error .conflict := h
    exact encodeResource_ne_conflict _ _ (by rw [he, Except.error.inj h3])
  | ok data =>
    rw [he] at h
    exact Except.noConfusion h

theorem conflictCond_iff (readT : Option Int) (t : Int) :
    ((match readT with
      | some rt => decide (rt ≠ 0) && decide (rt ≠ t)
      | none => false) = true) ↔ ∃ rt, readT = some rt ∧ rt ≠ 0 ∧ rt ≠ t := by
  cases readT with
  | none => simp
  | some rt => simp

theorem storeWriteResolve_set_conflict_iff (now : Int) (fs : FS) (r : Record)
    (rid : List (String × String)) (readT : Option Int) (t : Int)
    (hts : getTimestampMicros r = some t) :
    (storeWriteResolve now fs r rid readT = .error .conflict ↔
      ∃ rt, readT = some rt ∧ rt ≠ 0 ∧ rt ≠ t) := by
  rw [storeWriteResolve_set now fs r rid readT t hts, ← conflictCond_iff readT t]
  by_cases hcond : (match readT with
      | some rt => decide (rt ≠ 0) && decide (rt ≠ t)
      | none => false) = true
  · rw [if_pos hcond]
    constructor
    · intro _
      exact hcond
    · intro _
      rfl
  · rw [if_neg hcond]
    constructor
    · intro h
      cases he : encodeResource (partsOfPairs rid) r with
      | error e =>
        rw [he] at h
        have h3 : (Except.error e :
            Except Err (FS × Record × List (String × String))) = .error .conflict := h
        exact absurd (by rw [he, Except.error.inj h3])
          (encodeResource_ne_conflict (partsOfPairs rid) r)
      | ok data =>
        rw [he] at h
        exact Except.noConfusion h
    · intro h
      exact absurd h hcond

/-- C3 (conflict on timestamp change, amended): `write` fails with `Conflict`
exactly when the record carries a set (nonzero) creation timestamp, the
stored timestamp for the record's identifier reads back successfully *and is
itself nonzero*, and the two differ.  The claim's "a stored version already
exists" is not sufficient: by Python truthiness a stored timestamp that reads
back as `0` is treated as absent and never triggers a conflict.  (In this
pure embedding an error result carries no new store state, so nothing is
written on failure.) -/
theorem write_conflict_iff (now : Int) (fs : FS) (r : Record) :
    storeWrite now fs r = .error .conflict ↔
      ∃ rid t rt, toResourceId r = .ok rid ∧ getTimestampMicros r = some t ∧
        readTimestampMicros fs (ridStrOfPairs rid) = .ok rt ∧ rt ≠ 0 ∧ rt ≠ t := by
  rcases toResourceId_cases r with ⟨rid, hid⟩ | hid
  · rw [storeWrite_of_id now fs hid]
    cases hrt : readTimestampMicros fs (ridStrOfPairs rid) with
    | ok rt0 =>
      rw [storeWriteAfterId_readOk now r hrt]
      cases hts : getTimestampMicros r with
      | none =>
        constructor
        · intro h
          exact absurd h (storeWriteResolve_unset_ne_conflict now fs r rid (some rt0) hts)
        · rintro ⟨rid2, t2, rt2, hid2, hts2, _⟩
          exact Option.noConfusion hts2
      | some t =>
        rw [storeWriteResolve_set_conflict_iff now fs r rid (some rt0) t hts]
        constructor
        · rintro ⟨rt, hrteq, h0, hne⟩
          rcases Option.some.inj hrteq with rfl
          exact ⟨rid, t, rt0, hid, rfl, hrt, h0, hne⟩
        · rintro ⟨rid2, t2, rt2, hid2, hts2, hrt2, h0, hne⟩
          rw [hid] at hid2
          rcases Except.ok.inj hid2 with rfl
          rw [hrt] at hrt2
          rcases Except.ok.inj hrt2 with rfl
          rcases Option.some.inj hts2 with rfl
          exact ⟨rt0, rfl, h0, hne⟩
    | error e =>
      by_cases he : e = Err.notFound
      · rcases he with rfl
        rw [storeWriteAfterId_readNotFound now r hrt]
        constructor
        · intro h
          cases hts : getTimestampMicros r with
          | none =>
            exact absurd h (storeWriteResolve_unset_ne_conflict now fs r rid none hts)
          | some t =>
            rcases (storeWriteResolve_set_conflict_iff now fs r rid none t hts).1 h
              with ⟨rt, hrteq, _⟩
            exact Option.noConfusion hrteq
        · rintro ⟨rid2, t2, rt2, hid2, hts2, hrt2, _⟩
          rw [hid] at hid2
          rcases Except.ok.inj hid2 with rfl
          rw [hrt] at hrt2
          exact Except.noConfusion hrt2
      · rw [storeWriteAfterId_readErr now r hrt he]
        constructor
        · intro h
          have he2 : e = Err.conflict := Except.error.inj h
          rcases readTimestampMicros_error hrt with h3 | h3 <;>
            (rw [he2] at h3; exact Err.noConfusion h3)
        · rintro ⟨rid2, t2, rt2, hid2, hts2, hrt2, _⟩
          rw [hid] at hid2
          rcases Except.ok.inj hid2 with rfl
          rw [hrt] at hrt2
          exact Except.noConfusion hrt2
  · have hw : storeWrite now fs r = .error .unsupportedType := by
      rw [storeWrite, hid]
      rfl
    rw [hw]
    constructor
    · intro h
      exact Err.noConfusion (Except.error.inj h)
    · rintro ⟨rid2, t2, rt2, hid2, _⟩
      rw [hid] at hid2
      exact Except.noConfusion hid2

/-- Counterexample for C3 as stated: a stored version exists (one file whose
timestamp reads back as `0`) and the record's set timestamp `5` differs from
it, yet `write` does not fail with `Conflict` — it succeeds and writes a
second file. -/
theorem write_no_conflict_counterexample :
    toResourceId (Record.project "p" 5 "d") = .ok [("project", "p")] ∧
    ridStrOfPairs [("project", "p")] = "projects/p" ∧
    readTimestampMicros [("projects/p/resource.0000000000000000", Bytes.raw "x")]
      "projects/p" = .ok 0 ∧
    getTimestampMicros (Record.project "p" 5 "d") = some 5 ∧
    storeWrite 100 [("projects/p/resource.0000000000000000", Bytes.raw "x")]
        (Record.project "p" 5 "d") =
      .ok ([("projects/p/resource.0000000000000000", Bytes.raw "x"),
            ("projects/p/resource.0000000000000005",
              Bytes.ofRecord (Record.project "p" 5 "d"))],
           Record.project "p" 5 "d", [("project", "p")]) := by
  refine ⟨rfl, rfl, rfl, rfl, rfl⟩

theorem rsGetPath_inj {s : String} {a b : Int} (h : rsGetPath s a = rsGetPath s b) :
    a = b := by
  have h2 : (rsGetPath s a).toList = (rsGetPath s b).toList := by rw [h]
  rw [rsGetPath_toList, rsGetPath_toList] at h2
  have h4 := List.append_cancel_left h2
  have h5 := List.cons.inj h4
  have h3 : fmt016L a = fmt016L b := List.append_cancel_left h5.2
  have h6 : fmt016 a = fmt016 b := by
    rw [fmt016, fmt016, h3]
  have h7 : pyParseInt (fmt016 a) = pyParseInt (fmt016 b) := by rw [h6]
  rw [pyParseInt_fmt016, pyParseInt_fmt016] at h7
  exact Option.some.inj h7

/-- C2 (timestamp immutability, amended): restricted to directories in a
*canonical* state — empty, or holding exactly one canonically-named file
`resource.{ts:016d}` whose timestamp `ts` is nonzero — a successful write
preserves the at-most-one-file bound: afterwards the directory holds exactly
one canonically-named file.  When a nonzero-timestamped file already exists,
the write lands on that exact path (never a second timestamp), and a write
with no explicit timestamp reuses the stored timestamp: it reads back
unchanged and is the one set into the returned record.  (The restriction to
nonzero stored timestamps is necessary: a stored timestamp of `0` is falsy in
Python, and the write then mints a fresh timestamp and creates a second
file.) -/
theorem write_preserves_single_file (now : Int) (fs : FS) (r : Record)
    (rid : List (String × String)) (fs2 : FS) (r2 : Record)
    (rid2 : List (String × String))
    (hid : toResourceId r = .ok rid)
    (hstar : '*' ∉ (ridStrOfPairs rid).toList)
    (hdir : globFS fs (ridStrOfPairs rid ++ "/resource.*") = [] ∨
      ∃ ts, ts ≠ 0 ∧
        globFS fs (ridStrOfPairs rid ++ "/resource.*") =
          [rsGetPath (ridStrOfPairs rid) ts])
    (hw : storeWrite now fs r = .ok (fs2, r2, rid2)) :
    (∃ t2, globFS fs2 (ridStrOfPairs rid ++ "/resource.*") =
      [rsGetPath (ridStrOfPairs rid) t2]) ∧
    (∀ ts, ts ≠ 0 →
      globFS fs (ridStrOfPairs rid ++ "/resource.*") =
        [rsGetPath (ridStrOfPairs rid) ts] →
      globFS fs2 (ridStrOfPairs rid ++ "/resource.*") =
        [rsGetPath (ridStrOfPairs rid) ts] ∧
      (getTimestampMicros r = none →
        readTimestampMicros fs2 (ridStrOfPairs rid) = .ok ts ∧
        r2 = setTimestampMicros r ts)) := by
  rw [storeWrite_of_id now fs hid] at hw
  rcases hdir with hempty | ⟨ts, hts0, hsingle⟩
  · rw [storeWriteAfterId_readNotFound now r (readTimestampMicros_empty hempty)] at hw
    have hnotmem : ∀ t', ¬((fs.map Prod.fst).contains (rsGetPath (ridStrOfPairs rid) t')
        = true) := by
      intro t' hc
      have hm : rsGetPath (ridStrOfPairs rid) t' ∈
          globFS fs (ridStrOfPairs rid ++ "/resource.*") :=
        mem_globFS (List.elem_iff.mp hc) (globMatch_rsGetPath hstar t')
      rw [hempty] at hm
      simp at hm
    have hfresh : ∀ t' data,
        globFS (writeFile fs (rsGetPath (ridStrOfPairs rid) t') data)
            (ridStrOfPairs rid ++ "/resource.*") =
          [rsGetPath (ridStrOfPairs rid) t'] := by
      intro t' data
      rw [globFS_writeFile, if_neg (hnotmem t'), hempty,
        if_pos (globMatch_rsGetPath hstar t'), List.nil_append]
    cases hts : getTimestampMicros r with
    | none =>
      rw [storeWriteResolve_unset now fs r rid none hts] at hw
      cases he : encodeResource (partsOfPairs rid)
          (setTimestampMicros r (reconcileTs now none)) with
      | error e =>
        rw [he] at hw
        exact absurd hw (fun hc => Except.noConfusion hc)
      | ok data =>
        rw [he] at hw
        have h := Except.ok.inj hw
        injection h with h1 h23
        refine ⟨⟨reconcileTs now none, ?_⟩, ?_⟩
        · rw [← h1]
          exact hfresh (reconcileTs now none) data
        · intro ts2 _ hsingle2
          rw [hempty] at hsingle2
          exact absurd hsingle2 (fun hc => List.noConfusion hc)
    | some t =>
      rw [storeWriteResolve_set now fs r rid none t hts] at hw
      have hw2 : (match encodeResource (partsOfPairs rid) r with
          | .error e => (Except.error e :
              Except Err (FS × Record × List (String × String)))
          | .ok data =>
            Except.ok (writeFile fs (rsGetPath (ridStrOfPairs rid) t) data, r, rid))
          = .ok (fs2, r2, rid2) := hw
      cases he : encodeResource (partsOfPairs rid) r with
      | error e =>
        rw [he] at hw2
        exact absurd hw2 (fun hc => Except.noConfusion hc)
      | ok data =>
        rw [he] at hw2
        have h := Except.ok.inj hw2
        injection h with h1 h23
        refine ⟨⟨t, ?_⟩, ?_⟩
        · rw [← h1]
          exact hfresh t data
        · intro ts2 _ hsingle2
          rw [hempty] at hsingle2
          exact absurd hsingle2 (fun hc => List.noConfusion hc)
  · have hmem : (fs.map Prod.fst).contains (rsGetPath (ridStrOfPairs rid) ts) = true := by
      have hm : rsGetPath (ridStrOfPairs rid) ts ∈
          globFS fs (ridStrOfPairs rid ++ "/resource.*") := by
        rw [hsingle]
        exact List.mem_singleton.mpr rfl
      rw [globFS] at hm
      exact List.elem_iff.mpr (List.mem_filter.mp hm).1
    have hover : ∀ data,
        globFS (writeFile fs (rsGetPath (ridStrOfPairs rid) ts) data)
            (ridStrOfPairs rid ++ "/resource.*") =
          [rsGetPath (ridStrOfPairs rid) ts] := by
      intro data
      rw [globFS_writeFile, if_pos hmem, hsingle]
    have huniq : ∀ ts2, globFS fs (ridStrOfPairs rid ++ "/resource.*") =
        [rsGetPath (ridStrOfPairs rid) ts2] → ts2 = ts := by
      intro ts2 hs2
      rw [hsingle] at hs2
      exact (rsGetPath_inj (List.cons.inj hs2).1).symm
    rw [storeWriteAfterId_readOk now r (readTimestampMicros_single hsingle)] at hw
    cases hts : getTimestampMicros r with
    | none =>
      rw [storeWriteResolve_unset now fs r rid (some ts) hts] at hw
      have hrec : reconcileTs now (some ts) = ts := by
        rw [reconcileTs]
        show (if ts ≠ 0 then ts else now) = ts
        rw [if_pos hts0]
      rw [hrec] at hw
      cases he : encodeResource (partsOfPairs rid) (setTimestampMicros r ts) with
      | error e =>
        rw [he] at hw
        exact absurd hw (fun hc => Except.noConfusion hc)
      | ok data =>
        rw [he] at hw
        have h := Except.ok.inj hw
        injection h with h1 h23
        injection h23 with h2 h3
        refine ⟨⟨ts, ?_⟩, ?_⟩
        · rw [← h1]
          exact hover data
        · intro ts2 hts2 hsingle2
          rcases huniq ts2 hsingle2 with rfl
          refine ⟨?_, fun _ => ⟨?_, h2.symm⟩⟩
          · rw [← h1]
            exact hover data
          · rw [← h1]
            exact readTimestampMicros_single (hover data)
    | some t =>
      rw [storeWriteResolve_set now fs r rid (some ts) t hts] at hw
      by_cases hcond : (match (some ts : Option Int) with
          | some rt => decide (rt ≠ 0) && decide (rt ≠ t)
          | none => false) = true
      · rw [if_pos hcond] at hw
        exact absurd hw (fun hc => Except.noConfusion hc)
      · rw [if_neg hcond] at hw
        have hts_eq : ts = t := by
          by_contra hne
          exact hcond (by
            show (decide (ts ≠ 0) && decide (ts ≠ t)) = true
            rw [decide_eq_true hts0, decide_eq_true hne]
            rfl)
        cases he : encodeResource (partsOfPairs rid) r with
        | error e =>
          rw [he] at hw
          exact absurd hw (fun hc => Except.noConfusion hc)
        | ok data =>
          rw [he] at hw
          have h := Except.ok.inj hw
          injection h with h1 h23
          refine ⟨⟨ts, ?_⟩, ?_⟩
          · rw [← h1, ← hts_eq]
            exact hover data
          · intro ts2 hts2 hsingle2
            rcases huniq ts2 hsingle2 with rfl
            refine ⟨?_, fun hcontra => absurd hcontra (fun hc => Option.noConfusion hc)⟩
            rw [← h1, ← hts_eq]
            exact hover data

/-- Counterexample for C2 as stated: the identifier's directory holds exactly
one `resource.*` file (timestamp `0`), yet a successful write of a record
with no explicit timestamp does not reuse the stored timestamp — it mints the
wall-clock time and creates a *second* file with a new timestamp. -/
theorem write_second_file_counterexample :
    globFS [("projects/p/resource.0000000000000000", Bytes.raw "x")]
      "projects/p/resource.*" = ["projects/p/resource.0000000000000000"] ∧
    storeWrite 100 [("projects/p/resource.0000000000000000", Bytes.raw "x")]
        (Record.project "p" 0 "d") =
      .ok ([("projects/p/resource.0000000000000000", Bytes.raw "x"),
            ("projects/p/resource.0000000000000100",
              Bytes.ofRecord (Record.project "p" 100 "d"))],
           Record.project "p" 100 "d", [("project", "p")]) ∧
    globFS [("projects/p/resource.0000000000000000", Bytes.raw "x"),
            ("projects/p/resource.0000000000000100",
              Bytes.ofRecord (Record.project "p" 100 "d"))]
      "projects/p/resource.*" =
      ["projects/p/resource.0000000000000000",
       "projects/p/resource.0000000000000100"] := by
  refine ⟨rfl, rfl, rfl⟩

theorem write_preserves_single_file_witness :
    globFS ([] : FS) (ridStrOfPairs [("project", "p")] ++ "/resource.*") = [] ∧
    ((∃ t2, globFS [("projects/p/resource.0000000000000007",
          Bytes.ofRecord (Record.project "p" 7 "d"))]
          (ridStrOfPairs [("project", "p")] ++ "/resource.*") =
        [rsGetPath (ridStrOfPairs [("project", "p")]) t2]) ∧
      (∀ ts, ts ≠ 0 →
        globFS ([] : FS) (ridStrOfPairs [("project", "p")] ++ "/resource.*") =
          [rsGetPath (ridStrOfPairs [("project", "p")]) ts] →
        globFS [("projects/p/resource.0000000000000007",
            Bytes.ofRecord (Record.project "p" 7 "d"))]
            (ridStrOfPairs [("project", "p")] ++ "/resource.*") =
          [rsGetPath (ridStrOfPairs [("project", "p")]) ts] ∧
        (getTimestampMicros (Record.project "p" 0 "d") = none →
          readTimestampMicros [("projects/p/resource.0000000000000007",
              Bytes.ofRecord (Record.project "p" 7 "d"))]
            (ridStrOfPairs [("project", "p")]) = .ok ts ∧
          Record.project "p" 7 "d" = setTimestampMicros (Record.project "p" 0 "d") ts))) := by
  refine ⟨rfl, ?_⟩
  exact write_preserves_single_file 7 [] (Record.project "p" 0 "d")
    [("project", "p")]
    [("projects/p/resource.0000000000000007",
      Bytes.ofRecord (Record.project "p" 7 "d"))]
    (Record.project "p" 7 "d") [("project", "p")]
    rfl (by decide) (Or.inl rfl) rfl

/-- C10 (record mutation frame): when `write` succeeds, the returned record
is the input record with at most its timestamp field changed — unchanged
whenever the input carried a set (nonzero) timestamp, and, when the input's
timestamp was unset, equal to `set_timestamp_micros` of the input with either
the freshly minted wall-clock time or the truthy (nonzero) stored
timestamp. -/
theorem write_record_mutation (now : Int) (fs : FS) (r : Record) (fs2 : FS)
    (r2 : Record) (rid2 : List (String × String))
    (hw : storeWrite now fs r = .ok (fs2, r2, rid2)) :
    (getTimestampMicros r ≠ none → r2 = r) ∧
    (getTimestampMicros r = none →
      ∃ t, r2 = setTimestampMicros r t ∧
        (t = now ∨ (t ≠ 0 ∧ readTimestampMicros fs (ridStrOfPairs rid2) = .ok t))) := by
  rcases toResourceId_cases r with ⟨rid, hid⟩ | hid
  · rw [storeWrite_of_id now fs hid] at hw
    cases hrt : readTimestampMicros fs (ridStrOfPairs rid) with
    | ok rt =>
      rw [storeWriteAfterId_readOk now r hrt] at hw
      cases hts : getTimestampMicros r with
      | some t =>
        rw [storeWriteResolve_set now fs r rid (some rt) t hts] at hw
        by_cases hcond : (match (some rt : Option Int) with
            | some rt2 => decide (rt2 ≠ 0) && decide (rt2 ≠ t)
            | none => false) = true
        · rw [if_pos hcond] at hw
          exact absurd hw (fun hc => Except.noConfusion hc)
        · rw [if_neg hcond] at hw
          cases he : encodeResource (partsOfPairs rid) r with
          | error e =>
            rw [he] at hw
            exact absurd hw (fun hc => Except.noConfusion hc)
          | ok data =>
            rw [he] at hw
            have h := Except.ok.inj hw
            injection h with h1 h23
            injection h23 with h2 h3
            exact ⟨fun _ => h2.symm,
              fun hc => absurd hc (fun hc2 => Option.noConfusion hc2)⟩
      | none =>
        rw [storeWriteResolve_unset now fs r rid (some rt) hts] at hw
        cases he : encodeResource (partsOfPairs rid)
            (setTimestampMicros r (reconcileTs now (some rt))) with
        | error e =>
          rw [he] at hw
          exact absurd hw (fun hc => Except.noConfusion hc)
        | ok data =>
          rw [he] at hw
          have h := Except.ok.inj hw
          injection h with h1 h23
          injection h23 with h2 h3
          refine ⟨fun hne => absurd rfl hne,
            fun _ => ⟨reconcileTs now (some rt), h2.symm, ?_⟩⟩
          by_cases h0 : rt = 0
          · left
            rw [reconcileTs]
            show (if rt ≠ 0 then rt else now) = now
            rw [if_neg (fun hc => hc h0)]
          · right
            constructor
            · show reconcileTs now (some rt) ≠ 0
              rw [reconcileTs]
              show (if rt ≠ 0 then rt else now) ≠ 0
              rw [if_pos h0]
              exact h0
            · have hrec : reconcileTs now (some rt) = rt := by
                rw [reconcileTs]
                show (if rt ≠ 0 then rt else now) = rt
                rw [if_pos h0]
              rw [hrec, ← h3]
              exact hrt
    | error e =>
      by_cases henf : e = Err.notFound
      · rcases henf with rfl
        rw [storeWriteAfterId_readNotFound now r hrt] at hw
        cases hts : getTimestampMicros r with
        | some t =>
          rw [storeWriteResolve_set now fs r rid none t hts] at hw
          have hw2 : (match encodeResource (partsOfPairs rid) r with
              | .error e2 => (Except.error e2 :
                  Except Err (FS × Record × List (String × String)))
              | .ok data =>
                Except.ok (writeFile fs (rsGetPath (ridStrOfPairs rid) t) data,
                  r, rid)) = .ok (fs2, r2, rid2) := hw
          cases he : encodeResource (partsOfPairs rid) r with
          | error e2 =>
            rw [he] at hw2
            exact absurd hw2 (fun hc => Except.noConfusion hc)
          | ok data =>
            rw [he] at hw2
            have h := Except.ok.inj hw2
            injection h with h1 h23
            injection h23 with h2 h3
            exact ⟨fun _ => h2.symm,
              fun hc => absurd hc (fun hc2 => Option.noConfusion hc2)⟩
        | none =>
          rw [storeWriteResolve_unset now fs r rid none hts] at hw
          cases he : encodeResource (partsOfPairs rid)
              (setTimestampMicros r (reconcileTs now none)) with
          | error e2 =>
            rw [he] at hw
            exact absurd hw (fun hc => Except.noConfusion hc)
          | ok data =>
            rw [he] at hw
            have h := Except.ok.inj hw
            injection h with h1 h23
            injection h23 with h2 h3
            exact ⟨fun hne => absurd rfl hne,
              fun _ => ⟨now, h2.symm, Or.inl rfl⟩⟩
      · rw [storeWriteAfterId_readErr now r hrt henf] at hw
        exact absurd hw (fun hc => Except.noConfusion hc)
  · rw [storeWrite, hid] at hw
    have hw2 : (Except.error Err.unsupportedType :
        Except Err (FS × Record × List (String × String))) = .ok (fs2, r2, rid2) := hw
    exact absurd hw2 (fun hc => Except.noConfusion hc)

theorem write_record_mutation_witness :
    storeWrite 9 [] (Record.brain "p" "b" 3 "d") =
      .ok ([("projects/p/brains/b/resource.0000000000000003",
          Bytes.ofRecord (Record.brain "p" "b" 3 "d"))],
        Record.brain "p" "b" 3 "d", [("project", "p"), ("brain", "b")]) ∧
    ((getTimestampMicros (Record.brain "p" "b" 3 "d") ≠ none →
        Record.brain "p" "b" 3 "d" = Record.brain "p" "b" 3 "d") ∧
     (getTimestampMicros (Record.brain "p" "b" 3 "d") = none →
       ∃ t, Record.brain "p" "b" 3 "d" =
           setTimestampMicros (Record.brain "p" "b" 3 "d") t ∧
         (t = 9 ∨ (t ≠ 0 ∧ readTimestampMicros ([] : FS)
             (ridStrOfPairs [("project", "p"), ("brain", "b")]) = .ok t)))) := by
  refine ⟨rfl, ?_⟩
  exact write_record_mutation 9 [] (Record.brain "p" "b" 3 "d")
    [("projects/p/brains/b/resource.0000000000000003",
      Bytes.ofRecord (Record.brain "p" "b" 3 "d"))]
    (Record.brain "p" "b" 3 "d") [("project", "p"), ("brain", "b")] rfl

/-- C5 (encoder round-trip): for every identifier whose collection resolves
to a proto type and every record of exactly that type, encoding succeeds and
decoding the encoded bytes returns the original record. -/
theorem encode_decode_roundtrip (parts : List String) (r : Record) (tag : RecordTag)
    (hg : getProtoType parts = .ok tag) (htag : tagOf r = some tag) :
    encodeResource parts r = .ok (serializeToString r) ∧
    decodeResource parts (serializeToString r) = .ok r := by
  constructor
  · rw [encodeResource, hg]
    show (if tagOf r = some tag then (Except.ok (serializeToString r) : Except Err Bytes)
      else .error .typeMismatch) = .ok (serializeToString r)
    rw [if_pos htag]
  · rw [decodeResource, hg]
    show (if tagOf r = some tag then (Except.ok r : Except Err Record)
      else .error .decodeError) = .ok r
    rw [if_pos htag]

theorem encode_decode_roundtrip_witness :
    getProtoType ["projects", "p"] = .ok RecordTag.project ∧
    tagOf (Record.project "p" 1 "d") = some RecordTag.project ∧
    encodeResource ["projects", "p"] (Record.project "p" 1 "d") =
      .ok (serializeToString (Record.project "p" 1 "d")) ∧
    decodeResource ["projects", "p"] (serializeToString (Record.project "p" 1 "d")) =
      .ok (Record.project "p" 1 "d") := by
  have h := encode_decode_roundtrip ["projects", "p"] (Record.project "p" 1 "d")
    RecordTag.project rfl rfl
  exact ⟨rfl, rfl, h.1, h.2⟩

/-- C8 (resolver key derivation): for each record type with a declared
key-field mapping, `to_resource_id` emits one (collection, value) pair per
declared key field in declared order, copying values verbatim except the
distinguished `assignment_id` field, which is replaced by its SHA-256 hex
digest (64 characters for every input); a record type with no mapping fails
with the unsupported-type error. -/
theorem to_resource_id_derivation :
    (∀ a c bl, toResourceId (Record.project a c bl) = .ok [("project", a)]) ∧
    (∀ a b c bl, toResourceId (Record.brain a b c bl) =
      .ok [("project", a), ("brain", b)]) ∧
    (∀ a b s c bl, toResourceId (Record.snapshot a b s c bl) =
      .ok [("project", a), ("brain", b), ("snapshot", s)]) ∧
    (∀ a b s c bl, toResourceId (Record.session a b s c bl) =
      .ok [("project", a), ("brain", b), ("session", s)]) ∧
    (∀ a b s e k c bl, toResourceId (Record.episodeChunk a b s e k c bl) =
      .ok [("project", a), ("brain", b), ("session", s), ("episode", e),
           ("chunk", k)]) ∧
    (∀ a b s e c bl, toResourceId (Record.onlineEvaluation a b s e c bl) =
      .ok [("project", a), ("brain", b), ("session", s),
           ("online_evaluation", e)]) ∧
    (∀ a b s aid c bl, toResourceId (Record.assignment a b s aid c bl) =
      .ok [("project", a), ("brain", b), ("session", s),
           ("assignment", sha256hex aid)]) ∧
    (∀ a b s m c bl, toResourceId (Record.model a b s m c bl) =
      .ok [("project", a), ("brain", b), ("session", s), ("model", m)]) ∧
    (∀ a b s m c bl, toResourceId (Record.serializedModel a b s m c bl) =
      .ok [("project", a), ("brain", b), ("session", s),
           ("serialized_model", m)]) ∧
    (∀ a b s m o c bl, toResourceId (Record.offlineEvaluation a b s m o c bl) =
      .ok [("project", a), ("brain", b), ("session", s), ("model", m),
           ("offline_evaluation", o)]) ∧
    (∀ v, (sha256hex v).length = 64) ∧
    (∀ n, toResourceId (Record.unknown n) = .error .unsupportedType) := by
  refine ⟨?_, ?_, ?_, ?_, ?_, ?_, ?_, ?_, ?_, ?_, sha256hex_length, ?_⟩ <;>
    (intros; rfl)

end Falken
